import Mathlib

/-! # Social network analysis (`Project4.cpp`): a shallow embedding

`class SocialNetwork` keeps one field, `adjList`, an
`unordered_map<string, vector<string>>`.  The map is embedded as an association
list; the order of the list is the order in which a range-`for` walks the map
(the C++ standard leaves that order unspecified, so every statement below that
is quantified over all stores covers every iteration order).

Every member function is embedded as a function that returns its result
together with the map as it stands after the call, because `adjList[k]`
(`operator[]`) adds the key `k` with an empty vector when `k` has no entry.

The three traversals are loops with no syntactic bound; they are embedded with
a step budget, return `none` when the budget runs out, and the entry points
supply a budget computed from the store.  That the budget is always enough is
proved, so every entry point is shown to return `some`.

The loader is embedded on the lines of the file, with the `getline` semantics
for the separators `,` and `;`.  `basicStats` keeps the quotient of line 141 as
its two operands.

C++ `int` is embedded as `Int`; hop counts and scores are bounded by the number
of identifiers in the store, far below `2^31`.
-/

namespace SocialNetwork

/-! ## The store -/

/-- The field `adjList`: user identifier to friend sequence, in iteration order. -/
abbrev AdjList := List (String × List String)

/-- Lookup in a map kept as an association list (first binding wins). -/
def find {β : Type} : List (String × β) → String → Option β
  | [], _ => none
  | (k', v) :: rest, k => if k' = k then some v else find rest k

/-- Whether `adjList` has an entry for `k` (`adjList.count(k)`). -/
def hasKey (adj : AdjList) (k : String) : Bool := (find adj k).isSome

/-- The vector that `adjList[k]` refers to: the stored sequence, or the fresh
empty vector that `operator[]` creates for a missing key. -/
def neighbors (adj : AdjList) (k : String) : List String := (find adj k).getD []

/-- The map after evaluating `adjList[k]`: unchanged when `k` has an entry,
otherwise extended with `k ↦ []`. -/
def touch (adj : AdjList) (k : String) : AdjList :=
  if hasKey adj k then adj else adj ++ [(k, [])]

/-- Every friend entry of the store, in iteration order, duplicates kept. -/
def allFriends : AdjList → List String
  | [] => []
  | (_, v) :: rest => v ++ allFriends rest

/-- The keys of the store in iteration order. -/
def keys (adj : AdjList) : List String := adj.map Prod.fst

/-- The state the loader leaves behind: every listed friend has an entry
(`adjList[friendName];` on line 30). -/
def closed (adj : AdjList) : Bool :=
  (allFriends adj).all (fun f => hasKey adj f)

/-! ## `std::sort` with a "greater-than" comparator, then `resize(5)` -/

/-- Insert `x` in front of the first element that does not strictly precede it. -/
def insertBy {α : Type} (comp : α → α → Bool) (x : α) : List α → List α
  | [] => [x]
  | y :: ys => if comp y x then y :: insertBy comp x ys else x :: y :: ys

/-- The call `sort(begin, end, comp)`.  `std::sort` leaves the order of equivalent
elements unspecified; the embedding keeps them in their original order, which
is one admissible outcome (`SortOutcome` below states the guarantee itself). -/
def sortBy {α : Type} (comp : α → α → Bool) : List α → List α
  | [] => []
  | x :: xs => insertBy comp x (sortBy comp xs)

/-- The comparator `a.second > b.second` of lines 61-63 and 118-120. -/
def byScore (a b : String × Int) : Bool := decide (b.2 < a.2)

/-- The comparator `a.size() > b.size()` of lines 105-107. -/
def bySize (a b : List String) : Bool := decide (b.length < a.length)

/-! ## `suggestFriendsByDegree` (lines 35-66) -/

/-- The locals of `suggestFriendsByDegree` that the loop updates. -/
structure SuggestState where
  visited : List String
  degreeMap : List (String × Int)
  q : List (String × Int)

/-- The statement `degreeMap[k]++`: increment the entry of `k`, creating it at 0
first.  The entries are kept in the order of their creation; the iteration
order of the `unordered_map` itself is unspecified (`SuggestOutcome` below
admits every order). -/
def bump : List (String × Int) → String → List (String × Int)
  | [], k => [(k, 1)]
  | (k', v) :: rest, k => if k' = k then (k', v + 1) :: rest else (k', v) :: bump rest k

/-- The `for` loop of lines 49-57 over the friends of `current`. -/
def suggestScan (directFriends : List String) (depth : Int) :
    List String → SuggestState → SuggestState
  | [], st => st
  | neighbor :: rest, st =>
    if neighbor ∈ st.visited then suggestScan directFriends depth rest st
    else
      suggestScan directFriends depth rest
        { visited := neighbor :: st.visited
          degreeMap :=
            if neighbor ∈ directFriends then st.degreeMap else bump st.degreeMap neighbor
          q := st.q ++ [(neighbor, depth + 1)] }

/-- The `while (!q.empty())` loop of lines 45-58; returns the map and `degreeMap`. -/
def suggestLoop (directFriends : List String) :
    Nat → AdjList → SuggestState → Option (AdjList × List (String × Int))
  | 0, _, _ => none
  | fuel + 1, adj, st =>
    match st.q with
    | [] => some (adj, st.degreeMap)
    | (current, depth) :: q =>
      if 3 ≤ depth then suggestLoop directFriends fuel adj { st with q := q }
      else
        suggestLoop directFriends fuel (touch adj current)
          (suggestScan directFriends depth (neighbors adj current) { st with q := q })

/-- The member function `suggestFriendsByDegree`: the suggestions and the map
after the call. -/
def suggestFriendsByDegree (adj : AdjList) (user : String) :
    Option (List (String × Int) × AdjList) :=
  let directFriends := user :: neighbors adj user
  let adj1 := touch adj user
  match suggestLoop directFriends ((allFriends adj).length + 2) adj1
      { visited := [user], degreeMap := [], q := [(user, 0)] } with
  | none => none
  | some (adj2, degreeMap) => some ((sortBy byScore degreeMap).take 5, adj2)

/-! ## `degreeOfSeparation` (lines 68-85) -/

/-- The `for` loop of lines 76-82: `Sum.inl r` is `return r`, `Sum.inr` is the
pair `visited`, `q` when the loop runs to its end.  `visited` is only ever
tested for membership and read, so the newest binding is kept in front. -/
def dosScan (user2 current : String) :
    List String → List (String × Int) → List String →
      Sum Int (List (String × Int) × List String)
  | [], visited, q => Sum.inr (visited, q)
  | neighbor :: rest, visited, q =>
    if (find visited neighbor).isSome then dosScan user2 current rest visited q
    else
      let visited1 := (neighbor, (find visited current).getD 0 + 1) :: visited
      if neighbor = user2 then Sum.inl ((find visited1 neighbor).getD 0)
      else dosScan user2 current rest visited1 (q ++ [neighbor])

/-- The `while (!q.empty())` loop of lines 74-83 followed by `return -1`. -/
def dosLoop (user2 : String) :
    Nat → AdjList → List (String × Int) → List String → Option (Int × AdjList)
  | 0, _, _, _ => none
  | _ + 1, adj, _, [] => some (-1, adj)
  | fuel + 1, adj, visited, current :: q =>
    match dosScan user2 current (neighbors adj current) visited q with
    | Sum.inl r => some (r, touch adj current)
    | Sum.inr (visited1, q1) => dosLoop user2 fuel (touch adj current) visited1 q1

/-- The member function `degreeOfSeparation`: the hop count (or `-1`) and the
map after the call. -/
def degreeOfSeparation (adj : AdjList) (user1 user2 : String) : Option (Int × AdjList) :=
  dosLoop user2 ((allFriends adj).length + 2) adj [(user1, 0)] [user1]

/-! ## `dfs` and `getConnectedComponents` (lines 87-110) -/

/-- The map and the two reference parameters of `dfs`. -/
structure DfsState where
  adj : AdjList
  visited : List String
  component : List String

/-- The `for` loop of lines 90-92, with the recursive call passed in. -/
def dfsNbrs (call : String → DfsState → Option DfsState) :
    List String → DfsState → Option DfsState
  | [], st => some st
  | neighbor :: rest, st =>
    if neighbor ∈ st.visited then dfsNbrs call rest st
    else
      match call neighbor st with
      | none => none
      | some st1 => dfsNbrs call rest st1

/-- The member function `dfs`; the budget bounds the recursion depth. -/
def dfs : Nat → String → DfsState → Option DfsState
  | 0, _, _ => none
  | fuel + 1, user, st =>
    dfsNbrs (dfs fuel) (neighbors st.adj user)
      { adj := touch st.adj user
        visited := user :: st.visited
        component := st.component ++ [user] }

/-- The `for` loop of lines 98-104 over the entries of `adjList`.  It walks the
keys present when the loop starts; a key that `dfs` adds meanwhile is already
in `visited`, so reaching it or not makes no difference to the result. -/
def sweep (fuel : Nat) :
    List String → AdjList → List String → List (List String) →
      Option (List (List String) × AdjList)
  | [], adj, _, components => some (components, adj)
  | k :: ks, adj, visited, components =>
    if k ∈ visited then sweep fuel ks adj visited components
    else
      match dfs fuel k { adj := adj, visited := visited, component := [] } with
      | none => none
      | some st => sweep fuel ks st.adj st.visited (components ++ [st.component])

/-- The components found by the loop of lines 98-104, before sorting. -/
def sweepAll (adj : AdjList) : Option (List (List String) × AdjList) :=
  sweep ((keys adj).length + (allFriends adj).length + 1) (keys adj) adj [] []

/-- The member function `getConnectedComponents`: the reported components and
the map after the call. -/
def getConnectedComponents (adj : AdjList) : Option (List (List String) × AdjList) :=
  match sweepAll adj with
  | none => none
  | some (components, adj1) => some ((sortBy bySize components).take 5, adj1)

/-! ## `mostInfluentialUsers` (lines 112-123) -/

/-- The assignment `centrality[k] = v` on a map kept in insertion order. -/
def assign : List (String × Int) → String → Int → List (String × Int)
  | [], k, v => [(k, v)]
  | (k', v') :: rest, k, v => if k' = k then (k', v) :: rest else (k', v') :: assign rest k v

/-- The loop of lines 114-116. -/
def centralityOf : AdjList → List (String × Int) → List (String × Int)
  | [], centrality => centrality
  | (k, v) :: rest, centrality => centralityOf rest (assign centrality k (v.length : Int))

/-- The member function `mostInfluentialUsers`: the ranking and the map after
the call (the function never evaluates `adjList[...]`). -/
def mostInfluentialUsers (adj : AdjList) : List (String × Int) × AdjList :=
  ((sortBy byScore (centralityOf adj [])).take 5, adj)

/-! ## Paths of friend edges -/

/-- The relation `Path adj a n b`: some chain of `n` friend edges leads from `a` to `b`. -/
inductive Path (adj : AdjList) (a : String) : Nat → String → Prop
  | refl : Path adj a 0 a
  | step {n : Nat} {v w : String} :
      Path adj a n v → w ∈ neighbors adj v → Path adj a (n + 1) w

/-- Edges are symmetric: each key occurs in the friend sequence of every friend
it lists. -/
def symmetric (adj : AdjList) : Bool :=
  adj.all (fun e => e.2.all (fun f => decide (e.1 ∈ neighbors adj f)))

/-! ## Loop invariants of `degreeOfSeparation` -/

/-- Invariant of the `for` loop of lines 76-82 while `cur`, recorded at hop
count `c`, is being expanded from start `a` towards a target `b` not yet seen. -/
structure DosInner (adj : AdjList) (a b cur : String) (c : Int)
    (vis : List (String × Int)) (q : List String) : Prop where
  start : find vis a = some 0
  sound : ∀ v d, find vis v = some d → ∃ n : Nat, d = n ∧ Path adj a n v
  target : find vis b = none
  current : find vis cur = some c
  queued : ∀ v ∈ q, ∃ d, find vis v = some d
  sorted : q.Pairwise
    (fun u v => ∀ du dv, find vis u = some du → find vis v = some dv → du ≤ dv)
  upper : ∀ w dw, find vis w = some dw → dw ≤ c + 1
  lower : ∀ v ∈ q, ∀ dv, find vis v = some dv → c ≤ dv
  expanded : ∀ v dv, find vis v = some dv → v ∉ q → v ≠ cur →
    ∀ w ∈ neighbors adj v, ∃ dw, find vis w = some dw ∧ dw ≤ dv + 1

/-- Invariant of the `while` loop of lines 74-83 at the loop head. -/
structure DosOuter (adj : AdjList) (a b : String)
    (vis : List (String × Int)) (q : List String) : Prop where
  start : find vis a = some 0
  sound : ∀ v d, find vis v = some d → ∃ n : Nat, d = n ∧ Path adj a n v
  target : find vis b = none
  queued : ∀ v ∈ q, ∃ d, find vis v = some d
  sorted : q.Pairwise
    (fun u v => ∀ du dv, find vis u = some du → find vis v = some dv → du ≤ dv)
  upper : ∀ v ∈ q, ∀ dv, find vis v = some dv → ∀ w dw, find vis w = some dw → dw ≤ dv + 1
  expanded : ∀ v dv, find vis v = some dv → v ∉ q →
    ∀ w ∈ neighbors adj v, ∃ dw, find vis w = some dw ∧ dw ≤ dv + 1

/-- The store of the spec's scenario: A→B, A→C, B→A, B→D, C→A, D→B. -/
def exampleStore : AdjList :=
  [("A", ["B", "C"]), ("B", ["A", "D"]), ("C", ["A"]), ("D", ["B"])]

/-! ## What one call of `dfs` does to its state -/

/-- Relation between the state before and after a terminated run of `dfs` (or of
its loop) that visited the users `new`, in this order. -/
structure DfsStep (st st1 : DfsState) (new : List String) : Prop where
  component : st1.component = st.component ++ new
  visited : st1.visited = new.reverse ++ st.visited
  nodup : st1.visited.Nodup
  nbrs : ∀ k, neighbors st1.adj k = neighbors st.adj k
  friends : allFriends st1.adj = allFriends st.adj
  keysMono : ∀ w, hasKey st.adj w = true → hasKey st1.adj w = true
  listed : ∀ w ∈ new, hasKey st1.adj w = true

/-- The number of components that the loop of lines 98-104 finds. -/
def componentCount (adj : AdjList) : Nat :=
  match sweepAll adj with
  | none => 0
  | some (components, _) => components.length

/-! ## The measure behind the step budgets -/

/-- How many identifiers of `U` are not in `vis`. -/
def unseen (U vis : List String) : Nat := (U.toFinset \ vis.toFinset).card

/-! ## `loadFromCSV` (lines 17-33) -/

/-- The statement `adjList[k].push_back(f)`: append `f` to the vector of `k`,
which `operator[]` creates first when `k` has no entry. -/
def pushBack : AdjList → String → String → AdjList
  | [], k, f => [(k, [f])]
  | (k', v) :: rest, k, f =>
    if k' = k then (k', v ++ [f]) :: rest else (k', v) :: pushBack rest k f

/-- The body of the loop of lines 28-31 for one edge `user → friendName`:
`adjList[user].push_back(friendName); adjList[friendName];`. -/
def addEdge (adj : AdjList) (e : String × String) : AdjList :=
  touch (pushBack adj e.1 e.2) e.2

/-- The store after the loop body has run, from the empty map, for a sequence
of (source, target) edges. -/
def build (edges : List (String × String)) : AdjList := edges.foldl addEdge []

/-- The call `getline(ss, user, ',')` on the characters of one line: the text
before the first comma and, when there is a comma, the text after it. -/
def splitComma : List Char → List Char × Option (List Char)
  | [] => ([], none)
  | c :: cs =>
    if c = ',' then ([], some cs)
    else ((c :: (splitComma cs).1), (splitComma cs).2)

/-- The tokens that `while (getline(fss, friendName, ';'))` yields; `cur` is the
token read so far.  A read that extracts nothing at the end of the text fails
and ends the loop. -/
def splitTokens : List Char → List Char → List (List Char)
  | [], cur => if cur = [] then [] else [cur]
  | c :: cs, cur =>
    if c = ';' then cur :: splitTokens cs [] else splitTokens cs (cur ++ [c])

/-- One turn of the loop of lines 21-32 on the map and the variable `friends`,
which is declared outside the loop: `getline(ss, friends)` replaces it only
when the first `getline` stopped at a comma (otherwise the stream is at its
end and the second `getline` leaves `friends` as it was). -/
def loadLine (st : AdjList × String) (line : String) : AdjList × String :=
  let user := String.mk (splitComma line.data).1
  let friends :=
    match (splitComma line.data).2 with
    | some cs => String.mk cs
    | none => st.2
  ((splitTokens friends.data []).foldl (fun adj t => addEdge adj (user, String.mk t)) st.1,
    friends)

/-- The member function `loadFromCSV` on the lines of the file, starting from
the empty map of a fresh `SocialNetwork`. -/
def loadFromCSV (lines : List String) : AdjList := (lines.foldl loadLine ([], "")).1

/-! ## `basicStats` (lines 125-146) -/

/-- What `basicStats` prints.  The quotient `(double)totalConnections / totalUsers`
of line 141 is kept as its two operands; floating-point division itself is not
modelled. -/
structure Stats where
  totalUsers : Int
  averageNumerator : Int
  averageDenominator : Int
  top : List (String × Int)

/-- The loop of lines 130-134: the running sum and `connectionCounts`. -/
def countConnections : AdjList → Int → List (String × Int) → Int × List (String × Int)
  | [], total, counts => (total, counts)
  | (k, v) :: rest, total, counts =>
    countConnections rest (total + (v.length : Int)) (counts ++ [(k, (v.length : Int))])

/-- The member function `basicStats`. -/
def basicStats (adj : AdjList) : Stats :=
  { totalUsers := (adj.length : Int)
    averageNumerator := (countConnections adj 0 []).1
    averageDenominator := (adj.length : Int)
    top := (sortBy byScore (countConnections adj 0 []).2).take 10 }

/-! ## Shortest distance -/

/-- The user `b` is at shortest distance `n` from `a`. -/
def DistIs (adj : AdjList) (a : String) (n : Nat) (b : String) : Prop :=
  Path adj a n b ∧ ∀ m, Path adj a m b → n ≤ m

/-- A file with a record for `E` that lists no friends. -/
def exampleLines : List String := ["A,B;C", "B,A;D", "C,A", "D,B", "E,"]

/-! ## Loop invariants of `suggestFriendsByDegree` -/

/-- Invariant at the head of the `while` loop of lines 45-58.  The function
`dep` records the depth with which each visited user was pushed. -/
structure SugOuter (adj : AdjList) (u : String) (df : List String) (dep : String → Int)
    (st : SuggestState) : Prop where
  start : u ∈ st.visited ∧ dep u = 0
  sound : ∀ v ∈ st.visited, ∃ n : Nat, dep v = n ∧ n ≤ 3 ∧ Path adj u n v
  queued : ∀ e ∈ st.q, e.1 ∈ st.visited ∧ e.2 = dep e.1
  sorted : st.q.Pairwise (fun e f => e.2 ≤ f.2)
  upper : ∀ e ∈ st.q, ∀ w ∈ st.visited, dep w ≤ e.2 + 1
  expanded : ∀ v ∈ st.visited, (∀ e ∈ st.q, e.1 ≠ v) → dep v < 3 →
    ∀ w ∈ neighbors adj v, w ∈ st.visited ∧ dep w ≤ dep v + 1
  scored : ∀ p ∈ st.degreeMap, p.1 ∈ st.visited ∧ p.1 ∉ df ∧ p.2 = 1
  covered : ∀ v ∈ st.visited, v ∉ df → v ∈ st.degreeMap.map Prod.fst
  distinct : (st.degreeMap.map Prod.fst).Nodup

/-- Invariant of the `for` loop of lines 49-57 while `cur`, popped with depth
`c < 3`, is being expanded. -/
structure SugInner (adj : AdjList) (u : String) (df : List String) (cur : String) (c : Int)
    (dep : String → Int) (st : SuggestState) : Prop where
  start : u ∈ st.visited ∧ dep u = 0
  sound : ∀ v ∈ st.visited, ∃ n : Nat, dep v = n ∧ n ≤ 3 ∧ Path adj u n v
  current : cur ∈ st.visited ∧ dep cur = c ∧ c < 3
  queued : ∀ e ∈ st.q, e.1 ∈ st.visited ∧ e.2 = dep e.1
  sorted : st.q.Pairwise (fun e f => e.2 ≤ f.2)
  upper : ∀ w ∈ st.visited, dep w ≤ c + 1
  lower : ∀ e ∈ st.q, c ≤ e.2
  expanded : ∀ v ∈ st.visited, (∀ e ∈ st.q, e.1 ≠ v) → v ≠ cur → dep v < 3 →
    ∀ w ∈ neighbors adj v, w ∈ st.visited ∧ dep w ≤ dep v + 1
  scored : ∀ p ∈ st.degreeMap, p.1 ∈ st.visited ∧ p.1 ∉ df ∧ p.2 = 1
  covered : ∀ v ∈ st.visited, v ∉ df → v ∈ st.degreeMap.map Prod.fst
  distinct : (st.degreeMap.map Prod.fst).Nodup

/-! ## The two queues with a record of every `q.push` -/

/-- The loop of lines 49-57 with a ghost list `log` that receives the user of
every `q.push` of line 55. -/
def suggestScanLog (directFriends : List String) (depth : Int) :
    List String → SuggestState → List String → SuggestState × List String
  | [], st, log => (st, log)
  | neighbor :: rest, st, log =>
    if neighbor ∈ st.visited then suggestScanLog directFriends depth rest st log
    else
      suggestScanLog directFriends depth rest
        { visited := neighbor :: st.visited
          degreeMap :=
            if neighbor ∈ directFriends then st.degreeMap else bump st.degreeMap neighbor
          q := st.q ++ [(neighbor, depth + 1)] }
        (log ++ [neighbor])

/-- The loop of lines 45-58 with the ghost list of pushed users. -/
def suggestLoopLog (directFriends : List String) :
    Nat → AdjList → SuggestState → List String →
      Option (AdjList × List (String × Int) × List String)
  | 0, _, _, _ => none
  | fuel + 1, adj, st, log =>
    match st.q with
    | [] => some (adj, st.degreeMap, log)
    | (current, depth) :: q =>
      if 3 ≤ depth then suggestLoopLog directFriends fuel adj { st with q := q } log
      else
        suggestLoopLog directFriends fuel (touch adj current)
          (suggestScanLog directFriends depth (neighbors adj current)
            { st with q := q } log).1
          (suggestScanLog directFriends depth (neighbors adj current)
            { st with q := q } log).2

/-- The member function `suggestFriendsByDegree` with the ghost list of every
user pushed on the queue, the push of line 42 included. -/
def suggestFriendsByDegreeLog (adj : AdjList) (user : String) :
    Option (List (String × Int) × AdjList × List String) :=
  match suggestLoopLog (user :: neighbors adj user) ((allFriends adj).length + 2)
      (touch adj user) { visited := [user], degreeMap := [], q := [(user, 0)] } [user] with
  | none => none
  | some (adj2, degreeMap, log) => some ((sortBy byScore degreeMap).take 5, adj2, log)

/-- The loop of lines 76-82 with a ghost list `log` that receives the user of
every `q.push` of line 80. -/
def dosScanLog (user2 current : String) :
    List String → List (String × Int) → List String → List String →
      Sum Int (List (String × Int) × List String) × List String
  | [], visited, q, log => (Sum.inr (visited, q), log)
  | neighbor :: rest, visited, q, log =>
    if (find visited neighbor).isSome then dosScanLog user2 current rest visited q log
    else
      let visited1 := (neighbor, (find visited current).getD 0 + 1) :: visited
      if neighbor = user2 then (Sum.inl ((find visited1 neighbor).getD 0), log)
      else dosScanLog user2 current rest visited1 (q ++ [neighbor]) (log ++ [neighbor])

/-- The loop of lines 74-83 with the ghost list of pushed users. -/
def dosLoopLog (user2 : String) :
    Nat → AdjList → List (String × Int) → List String → List String →
      Option (Int × AdjList × List String)
  | 0, _, _, _, _ => none
  | _ + 1, adj, _, [], log => some (-1, adj, log)
  | fuel + 1, adj, visited, current :: q, log =>
    match dosScanLog user2 current (neighbors adj current) visited q log with
    | (Sum.inl r, log1) => some (r, touch adj current, log1)
    | (Sum.inr (visited1, q1), log1) =>
      dosLoopLog user2 fuel (touch adj current) visited1 q1 log1

/-- The member function `degreeOfSeparation` with the ghost list of every user
pushed on the queue, the push of line 71 included. -/
def degreeOfSeparationLog (adj : AdjList) (user1 user2 : String) :
    Option (Int × AdjList × List String) :=
  dosLoopLog user2 ((allFriends adj).length + 2) adj [(user1, 0)] [user1] [user1]

/-! ## Lines 60-65 of `suggestFriendsByDegree` without a fixed order -/

/-- The map and `degreeMap` with which the loop of `suggestFriendsByDegree`
ends. -/
def suggestCandidates (adj : AdjList) (user : String) :
    Option (AdjList × List (String × Int)) :=
  suggestLoop (user :: neighbors adj user) ((allFriends adj).length + 2) (touch adj user)
    { visited := [user], degreeMap := [], q := [(user, 0)] }

/-- What `std::sort(begin, end, comp)` guarantees about its output: it is a
rearrangement of the input in which no element precedes, by `comp`, an earlier
one.  The order of equivalent elements is left open. -/
def SortOutcome {α : Type} (comp : α → α → Bool) (input output : List α) : Prop :=
  output.Perm input ∧ output.Pairwise (fun a b => comp b a = false)

/-- The results that lines 60-65 admit: `suggestions` holds the entries of
`degreeMap` in the unspecified iteration order of the `unordered_map`, `sorted`
is what `std::sort` makes of it, and `resize(5)` keeps the first 5 entries.
The function `suggestFriendsByDegree` above computes one of these results. -/
def SuggestOutcome (adj : AdjList) (user : String) (res : List (String × Int))
    (adj1 : AdjList) : Prop :=
  ∃ dm suggestions sorted, suggestCandidates adj user = some (adj1, dm) ∧
    suggestions.Perm dm ∧ SortOutcome byScore suggestions sorted ∧ res = sorted.take 5

/-! ## Basic facts about the store -/

theorem find_eq_none_iff {β : Type} (m : List (String × β)) (k : String) :
    find m k = none ↔ k ∉ m.map Prod.fst := by
  induction m with
  | nil => simp [find]
  | cons e rest ih =>
    obtain ⟨k', v⟩ := e
    by_cases h : k' = k
    · simp [find, h]
    · simp [find, h, ih, Ne.symm h]

theorem find_mem {β : Type} (m : List (String × β)) (k : String) (v : β)
    (h : find m k = some v) : (k, v) ∈ m := by
  induction m with
  | nil => simp [find] at h
  | cons e rest ih =>
    obtain ⟨k', v'⟩ := e
    by_cases hk : k' = k
    · simp [find, hk] at h
      simp [hk, h]
    · simp [find, hk] at h
      exact List.mem_cons_of_mem _ (ih h)

theorem hasKey_iff (adj : AdjList) (k : String) : hasKey adj k = true ↔ k ∈ keys adj := by
  unfold hasKey keys
  cases h : find adj k with
  | none => simpa using (find_eq_none_iff adj k).1 h
  | some v =>
    have : find adj k ≠ none := by simp [h]
    simpa using (not_iff_not.2 (find_eq_none_iff adj k)).1 this

theorem neighbors_append_empty (adj : AdjList) (k k' : String) :
    neighbors (adj ++ [(k, [])]) k' = neighbors adj k' := by
  unfold neighbors
  induction adj with
  | nil => by_cases h : k = k' <;> simp [find, h]
  | cons e rest ih =>
    obtain ⟨k1, v1⟩ := e
    by_cases h : k1 = k' <;> simp [find, h, ih]

theorem neighbors_touch (adj : AdjList) (k k' : String) :
    neighbors (touch adj k) k' = neighbors adj k' := by
  unfold touch
  split
  · rfl
  · exact neighbors_append_empty adj k k'

theorem allFriends_append (a b : AdjList) :
    allFriends (a ++ b) = allFriends a ++ allFriends b := by
  induction a with
  | nil => simp [allFriends]
  | cons e rest ih =>
    obtain ⟨k, v⟩ := e
    simp [allFriends, ih]

theorem allFriends_touch (adj : AdjList) (k : String) :
    allFriends (touch adj k) = allFriends adj := by
  unfold touch
  split
  · rfl
  · simp [allFriends_append, allFriends]

theorem touch_of_hasKey (adj : AdjList) (k : String) (h : hasKey adj k = true) :
    touch adj k = adj := by
  simp [touch, h]

theorem keys_touch_subset (adj : AdjList) (k : String) : keys adj ⊆ keys (touch adj k) := by
  unfold touch
  split
  · exact fun _ h => h
  · intro x hx
    simp [keys] at hx ⊢
    exact Or.inl hx

theorem mem_allFriends_of_mem (adj : AdjList) (k : String) (v : List String) (w : String)
    (h : (k, v) ∈ adj) (hw : w ∈ v) : w ∈ allFriends adj := by
  induction adj with
  | nil => simp at h
  | cons e rest ih =>
    obtain ⟨k1, v1⟩ := e
    simp only [allFriends, List.mem_append]
    rcases List.mem_cons.1 h with h1 | h1
    · simp only [Prod.mk.injEq] at h1
      exact Or.inl (h1.2 ▸ hw)
    · exact Or.inr (ih h1)

theorem mem_allFriends_of_neighbors (adj : AdjList) (k w : String)
    (h : w ∈ neighbors adj k) : w ∈ allFriends adj := by
  unfold neighbors at h
  cases hf : find adj k with
  | none => simp [hf] at h
  | some v =>
    simp [hf] at h
    exact mem_allFriends_of_mem adj k v w (find_mem adj k v hf) h

theorem hasKey_of_closed (adj : AdjList) (hc : closed adj = true) (w : String)
    (h : w ∈ allFriends adj) : hasKey adj w = true := by
  unfold closed at hc
  exact (List.all_eq_true.1 hc) w h

theorem neighbors_of_not_hasKey (adj : AdjList) (k : String) (h : hasKey adj k = false) :
    neighbors adj k = [] := by
  unfold hasKey at h
  unfold neighbors
  cases hf : find adj k with
  | none => rfl
  | some v => simp [hf] at h

/-! ## Facts about sorting and truncation -/

theorem insertBy_perm {α : Type} (comp : α → α → Bool) (x : α) (l : List α) :
    (insertBy comp x l).Perm (x :: l) := by
  induction l with
  | nil => simp [insertBy]
  | cons y ys ih =>
    unfold insertBy
    split
    · exact (List.Perm.cons y ih).trans (List.Perm.swap x y ys)
    · exact List.Perm.refl _

theorem sortBy_perm {α : Type} (comp : α → α → Bool) (l : List α) :
    (sortBy comp l).Perm l := by
  induction l with
  | nil => simp [sortBy]
  | cons x xs ih =>
    unfold sortBy
    exact (insertBy_perm comp x _).trans (List.Perm.cons x ih)

theorem insertBy_pairwise {α : Type} (comp : α → α → Bool)
    (hasymm : ∀ a b, comp a b = true → comp b a = false)
    (htrans : ∀ a b c, comp b a = false → comp c b = false → comp c a = false)
    (x : α) (l : List α) (hl : l.Pairwise (fun a b => comp b a = false)) :
    (insertBy comp x l).Pairwise (fun a b => comp b a = false) := by
  induction l with
  | nil => simp [insertBy]
  | cons y ys ih =>
    unfold insertBy
    rw [List.pairwise_cons] at hl
    split
    · rename_i hyx
      rw [List.pairwise_cons]
      refine ⟨?_, ih hl.2⟩
      intro z hz
      rcases List.mem_cons.1 ((insertBy_perm comp x ys).subset hz) with h | h
      · subst h
        exact hasymm _ _ hyx
      · exact hl.1 z h
    · rename_i hyx
      have hyx' : comp y x = false := by simpa using hyx
      rw [List.pairwise_cons]
      refine ⟨?_, List.pairwise_cons.2 hl⟩
      intro z hz
      rcases List.mem_cons.1 hz with h | h
      · subst h
        exact hyx'
      · exact htrans _ _ _ hyx' (hl.1 z h)

theorem sortBy_pairwise {α : Type} (comp : α → α → Bool)
    (hasymm : ∀ a b, comp a b = true → comp b a = false)
    (htrans : ∀ a b c, comp b a = false → comp c b = false → comp c a = false)
    (l : List α) : (sortBy comp l).Pairwise (fun a b => comp b a = false) := by
  induction l with
  | nil => simp [sortBy]
  | cons x xs ih =>
    unfold sortBy
    exact insertBy_pairwise comp hasymm htrans x _ ih

theorem sortBy_byScore_pairwise (l : List (String × Int)) :
    (sortBy byScore l).Pairwise (fun a b => b.2 ≤ a.2) := by
  have h := sortBy_pairwise byScore
    (by intro a b h; simp [byScore] at h ⊢; omega)
    (by intro a b c h1 h2; simp [byScore] at h1 h2 ⊢; omega) l
  refine h.imp ?_
  intro a b hab
  simpa [byScore] using hab

theorem sortBy_bySize_pairwise (l : List (List String)) :
    (sortBy bySize l).Pairwise (fun a b => b.length ≤ a.length) := by
  have h := sortBy_pairwise bySize
    (by intro a b h; simp [bySize] at h ⊢; omega)
    (by intro a b c h1 h2; simp [bySize] at h1 h2 ⊢; omega) l
  refine h.imp ?_
  intro a b hab
  simpa [bySize] using hab

/-! ## Counting the identifiers not yet visited -/

theorem unseen_le (U vis : List String) : unseen U vis ≤ U.length := by
  unfold unseen
  exact (Finset.card_le_card Finset.sdiff_subset).trans (List.toFinset_card_le U)

theorem unseen_mono (U vis vis' : List String) (h : vis ⊆ vis') :
    unseen U vis' ≤ unseen U vis := by
  unfold unseen
  apply Finset.card_le_card
  apply Finset.sdiff_subset_sdiff (Finset.Subset.refl _)
  intro x hx
  simp only [List.mem_toFinset] at hx ⊢
  exact h hx

theorem unseen_cons_lt (U vis : List String) (w : String) (hU : w ∈ U) (hv : w ∉ vis) :
    unseen U (w :: vis) < unseen U vis := by
  unfold unseen
  apply Finset.card_lt_card
  rw [Finset.ssubset_iff_of_subset]
  · exact ⟨w, by simp [hU, hv], by simp⟩
  · apply Finset.sdiff_subset_sdiff (Finset.Subset.refl _)
    intro x hx
    simp only [List.mem_toFinset] at hx ⊢
    exact List.mem_cons_of_mem _ hx

/-! ## `suggestFriendsByDegree`: termination and the candidates -/

theorem suggestScan_measure (U df : List String) (depth : Int) (nbrs : List String)
    (st : SuggestState) (hU : ∀ w ∈ nbrs, w ∈ U) :
    unseen U (suggestScan df depth nbrs st).visited + (suggestScan df depth nbrs st).q.length
      ≤ unseen U st.visited + st.q.length := by
  induction nbrs generalizing st with
  | nil => simp [suggestScan]
  | cons w rest ih =>
    have hrest : ∀ x ∈ rest, x ∈ U := fun x hx => hU x (List.mem_cons_of_mem _ hx)
    unfold suggestScan
    split
    · exact ih st hrest
    · rename_i hv
      refine (ih _ hrest).trans ?_
      have := unseen_cons_lt U st.visited w (hU w (List.mem_cons_self _ _)) hv
      simp only [List.length_append, List.length_singleton]
      omega

theorem suggestLoop_total (U df : List String) (fuel : Nat) (adj : AdjList)
    (st : SuggestState) (hU : ∀ k, ∀ w ∈ neighbors adj k, w ∈ U)
    (hfuel : unseen U st.visited + st.q.length < fuel) :
    ∃ adj1 dm, suggestLoop df fuel adj st = some (adj1, dm) := by
  induction fuel generalizing adj st with
  | zero => omega
  | succ fuel ih =>
    unfold suggestLoop
    cases hq : st.q with
    | nil => exact ⟨adj, st.degreeMap, rfl⟩
    | cons e q =>
      obtain ⟨current, depth⟩ := e
      simp only
      rw [hq] at hfuel
      simp only [List.length_cons] at hfuel
      split
      · exact ih adj _ hU (by simp only; omega)
      · apply ih
        · intro k w hw
          rw [neighbors_touch] at hw
          exact hU k w hw
        · have := suggestScan_measure U df depth (neighbors adj current)
            { st with q := q } (hU current)
          simp only at this
          omega

theorem suggestFriendsByDegree_run (adj : AdjList) (user : String) :
    ∃ adj1 dm,
      suggestLoop (user :: neighbors adj user) ((allFriends adj).length + 2) (touch adj user)
        { visited := [user], degreeMap := [], q := [(user, 0)] } = some (adj1, dm) ∧
      suggestFriendsByDegree adj user = some ((sortBy byScore dm).take 5, adj1) := by
  have h := suggestLoop_total (user :: allFriends adj) (user :: neighbors adj user)
    ((allFriends adj).length + 2) (touch adj user)
    { visited := [user], degreeMap := [], q := [(user, 0)] }
    (by
      intro k w hw
      rw [neighbors_touch] at hw
      exact List.mem_cons_of_mem _ (mem_allFriends_of_neighbors adj k w hw))
    (by
      have h1 := unseen_cons_lt (user :: allFriends adj) [] user (List.mem_cons_self _ _)
        (List.not_mem_nil _)
      have h2 := unseen_le (user :: allFriends adj) []
      simp only [List.length_cons, List.length_singleton, List.length_nil] at h2 ⊢
      omega)
  obtain ⟨adj1, dm, h⟩ := h
  exact ⟨adj1, dm, h, by simp only [suggestFriendsByDegree, h]⟩

theorem bump_keys (m : List (String × Int)) (k : String) (p : String × Int)
    (hp : p ∈ bump m k) : p.1 = k ∨ p.1 ∈ m.map Prod.fst := by
  induction m with
  | nil =>
    simp [bump] at hp
    simp [hp]
  | cons e rest ih =>
    obtain ⟨k', v⟩ := e
    unfold bump at hp
    split at hp
    · rename_i hk
      rcases List.mem_cons.1 hp with h | h
      · right
        simp [h]
      · right
        simp only [List.map_cons, List.mem_cons]
        exact Or.inr (List.mem_map_of_mem _ h)
    · rcases List.mem_cons.1 hp with h | h
      · right
        simp [h]
      · rcases ih h with h1 | h1
        · exact Or.inl h1
        · right
          simp only [List.map_cons, List.mem_cons]
          exact Or.inr h1

theorem suggestScan_candidates (df : List String) (depth : Int) (nbrs : List String)
    (st : SuggestState) (h : ∀ k ∈ st.degreeMap.map Prod.fst, k ∉ df) :
    ∀ k ∈ (suggestScan df depth nbrs st).degreeMap.map Prod.fst, k ∉ df := by
  induction nbrs generalizing st with
  | nil => simpa [suggestScan] using h
  | cons w rest ih =>
    unfold suggestScan
    split
    · exact ih st h
    · apply ih
      simp only
      split
      · exact h
      · rename_i hw
        intro k hk
        obtain ⟨p, hp, rfl⟩ := List.mem_map.1 hk
        rcases bump_keys _ _ p hp with h1 | h1
        · rw [h1]
          exact hw
        · exact h _ h1

theorem suggestLoop_candidates (df : List String) (fuel : Nat) (adj : AdjList)
    (st : SuggestState) (adj1 : AdjList) (dm : List (String × Int))
    (hrun : suggestLoop df fuel adj st = some (adj1, dm))
    (h : ∀ k ∈ st.degreeMap.map Prod.fst, k ∉ df) :
    ∀ k ∈ dm.map Prod.fst, k ∉ df := by
  induction fuel generalizing adj st with
  | zero => simp [suggestLoop] at hrun
  | succ fuel ih =>
    unfold suggestLoop at hrun
    cases hq : st.q with
    | nil =>
      simp only [hq, Option.some.injEq, Prod.mk.injEq] at hrun
      rw [← hrun.2]
      exact h
    | cons e q =>
      obtain ⟨current, depth⟩ := e
      simp only [hq] at hrun
      split at hrun
      · exact ih adj _ hrun h
      · exact ih _ _ hrun (suggestScan_candidates df depth _ _ h)

/-! ## `degreeOfSeparation`: termination -/

theorem find_cons {β : Type} (k : String) (v : β) (m : List (String × β)) (k' : String) :
    find ((k, v) :: m) k' = if k = k' then some v else find m k' := rfl

theorem find_isSome_iff {β : Type} (m : List (String × β)) (k : String) :
    (find m k).isSome = true ↔ k ∈ m.map Prod.fst := by
  rw [← not_iff_not, ← find_eq_none_iff]
  cases find m k <;> simp

theorem dosScan_measure (U : List String) (b cur : String) (nbrs : List String)
    (vis : List (String × Int)) (q : List String) (hU : ∀ w ∈ nbrs, w ∈ U)
    (vis1 : List (String × Int)) (q1 : List String)
    (h : dosScan b cur nbrs vis q = Sum.inr (vis1, q1)) :
    unseen U (vis1.map Prod.fst) + q1.length ≤ unseen U (vis.map Prod.fst) + q.length := by
  induction nbrs generalizing vis q with
  | nil =>
    simp only [dosScan, Sum.inr.injEq, Prod.mk.injEq] at h
    rw [← h.1, ← h.2]
  | cons w rest ih =>
    have hrest : ∀ x ∈ rest, x ∈ U := fun x hx => hU x (List.mem_cons_of_mem _ hx)
    unfold dosScan at h
    split at h
    · exact ih vis q hrest h
    · rename_i hv
      simp only at h
      split at h
      · exact absurd h (by simp)
      · refine (ih _ _ hrest h).trans ?_
        have hv' : w ∉ vis.map Prod.fst := by
          rw [← find_isSome_iff]
          exact hv
        have := unseen_cons_lt U (vis.map Prod.fst) w (hU w (List.mem_cons_self _ _)) hv'
        simp only [List.map_cons, List.length_append, List.length_singleton]
        omega

theorem dosLoop_total (U : List String) (b : String) (fuel : Nat) (adj : AdjList)
    (vis : List (String × Int)) (q : List String)
    (hU : ∀ k, ∀ w ∈ neighbors adj k, w ∈ U)
    (hfuel : unseen U (vis.map Prod.fst) + q.length < fuel) :
    ∃ r adj1, dosLoop b fuel adj vis q = some (r, adj1) := by
  induction fuel generalizing adj vis q with
  | zero => omega
  | succ fuel ih =>
    cases q with
    | nil => exact ⟨-1, adj, by simp [dosLoop]⟩
    | cons cur q =>
      simp only [dosLoop]
      cases hs : dosScan b cur (neighbors adj cur) vis q with
      | inl r => exact ⟨r, _, rfl⟩
      | inr p =>
        obtain ⟨vis1, q1⟩ := p
        simp only
        apply ih
        · intro k w hw
          rw [neighbors_touch] at hw
          exact hU k w hw
        · have := dosScan_measure U b cur _ vis q (hU cur) vis1 q1 hs
          simp only [List.length_cons] at hfuel
          omega

theorem degreeOfSeparation_total (adj : AdjList) (a b : String) :
    ∃ r adj1, degreeOfSeparation adj a b = some (r, adj1) := by
  unfold degreeOfSeparation
  apply dosLoop_total (a :: allFriends adj)
  · intro k w hw
    exact List.mem_cons_of_mem _ (mem_allFriends_of_neighbors adj k w hw)
  · have h1 := unseen_cons_lt (a :: allFriends adj) [] a (List.mem_cons_self _ _)
      (List.not_mem_nil _)
    have h2 := unseen_le (a :: allFriends adj) []
    simp only [List.length_cons, List.length_singleton, List.length_nil, List.map_cons,
      List.map_nil] at h2 ⊢
    omega

/-! ## `degreeOfSeparation`: a target that is already visited is never reported -/

theorem dosScan_target_visited (b cur : String) (nbrs : List String)
    (vis : List (String × Int)) (q : List String) (hb : (find vis b).isSome = true) :
    ∃ vis1 q1, dosScan b cur nbrs vis q = Sum.inr (vis1, q1) ∧ (find vis1 b).isSome = true := by
  induction nbrs generalizing vis q with
  | nil => exact ⟨vis, q, rfl, hb⟩
  | cons w rest ih =>
    unfold dosScan
    split
    · exact ih vis q hb
    · rename_i hv
      have hwb : w ≠ b := by
        intro h
        rw [h] at hv
        exact hv hb
      simp only [hwb, if_false]
      apply ih
      rw [find_cons]
      simp [hwb, hb]

theorem dosLoop_target_visited (b : String) (fuel : Nat) (adj : AdjList)
    (vis : List (String × Int)) (q : List String) (hb : (find vis b).isSome = true)
    (r : Int) (adj1 : AdjList) (h : dosLoop b fuel adj vis q = some (r, adj1)) : r = -1 := by
  induction fuel generalizing adj vis q with
  | zero => simp [dosLoop] at h
  | succ fuel ih =>
    cases q with
    | nil =>
      simp only [dosLoop, Option.some.injEq, Prod.mk.injEq] at h
      exact h.1.symm
    | cons cur q =>
      simp only [dosLoop] at h
      obtain ⟨vis1, q1, hs, hb1⟩ := dosScan_target_visited b cur (neighbors adj cur) vis q hb
      rw [hs] at h
      exact ih _ vis1 q1 hb1 h

theorem degreeOfSeparation_same (adj : AdjList) (u : String) :
    ∃ adj1, degreeOfSeparation adj u u = some (-1, adj1) := by
  obtain ⟨r, adj1, h⟩ := degreeOfSeparation_total adj u u
  have hr : r = -1 := by
    unfold degreeOfSeparation at h
    exact dosLoop_target_visited u _ adj [(u, 0)] [u] (by simp [find]) r adj1 h
  exact ⟨adj1, by rw [h, hr]⟩

/-! ## `degreeOfSeparation`: the breadth-first search finds shortest paths -/

theorem find_push_old (vis : List (String × Int)) (w : String) (x : Int)
    (hw : find vis w = none) (v : String) (d : Int) (h : find vis v = some d) :
    find ((w, x) :: vis) v = some d := by
  rw [find_cons]
  have : w ≠ v := by
    intro e
    rw [e, h] at hw
    exact absurd hw (by simp)
  simp [this, h]

theorem find_push_inv (vis : List (String × Int)) (w : String) (x : Int)
    (v : String) (d : Int) (h : find ((w, x) :: vis) v = some d) :
    (v = w ∧ d = x) ∨ (v ≠ w ∧ find vis v = some d) := by
  rw [find_cons] at h
  by_cases e : w = v
  · simp only [e, if_true, Option.some.injEq] at h
    exact Or.inl ⟨e.symm, h.symm⟩
  · simp only [e, if_false] at h
    exact Or.inr ⟨Ne.symm e, h⟩

theorem DosInner.complete {adj : AdjList} {a b cur : String} {c : Int}
    {vis : List (String × Int)} {q : List String} (inv : DosInner adj a b cur c vis q)
    (n : Nat) (v : String) (hp : Path adj a n v) (hn : (n : Int) ≤ c) :
    ∃ d, find vis v = some d ∧ d ≤ n := by
  induction hp with
  | refl => exact ⟨0, inv.start, by simp⟩
  | step hp hw ih =>
    rename_i m v w
    obtain ⟨d, hd, hdm⟩ := ih (by push_cast at hn; omega)
    have hvq : v ∉ q := by
      intro hq
      have := inv.lower v hq d hd
      push_cast at hn
      omega
    have hvc : v ≠ cur := by
      intro e
      rw [e, inv.current] at hd
      simp only [Option.some.injEq] at hd
      push_cast at hn
      omega
    obtain ⟨dw, hdw, hle⟩ := inv.expanded v d hd hvq hvc w hw
    exact ⟨dw, hdw, by push_cast; omega⟩

theorem DosInner.push {adj : AdjList} {a b cur : String} {c : Int}
    {vis : List (String × Int)} {q : List String} (inv : DosInner adj a b cur c vis q)
    (w : String) (hw : find vis w = none) (hwb : w ≠ b) (hedge : w ∈ neighbors adj cur) :
    DosInner adj a b cur c ((w, c + 1) :: vis) (q ++ [w]) := by
  have old := find_push_old vis w (c + 1) hw
  have new := find_push_inv vis w (c + 1)
  constructor
  · exact old _ _ inv.start
  · intro v d h
    rcases new v d h with ⟨hv, hd⟩ | ⟨_, hd⟩
    · obtain ⟨n, hn, hp⟩ := inv.sound cur c inv.current
      refine ⟨n + 1, by rw [hd, hn]; push_cast; rfl, ?_⟩
      rw [hv]
      exact Path.step hp hedge
    · exact inv.sound v d hd
  · rw [find_cons]
    simp [hwb, inv.target]
  · exact old _ _ inv.current
  · intro v hv
    rcases List.mem_append.1 hv with h | h
    · obtain ⟨d, hd⟩ := inv.queued v h
      exact ⟨d, old _ _ hd⟩
    · simp only [List.mem_singleton] at h
      exact ⟨c + 1, by rw [h, find_cons]; simp⟩
  · rw [List.pairwise_append]
    refine ⟨?_, List.pairwise_singleton _ _, ?_⟩
    · refine inv.sorted.imp_of_mem ?_
      intro u v hu hv huv du dv h1 h2
      obtain ⟨du', hdu⟩ := inv.queued u hu
      obtain ⟨dv', hdv⟩ := inv.queued v hv
      rw [old _ _ hdu] at h1
      rw [old _ _ hdv] at h2
      simp only [Option.some.injEq] at h1 h2
      rw [← h1, ← h2]
      exact huv _ _ hdu hdv
    · intro u hu v hv du dv h1 h2
      simp only [List.mem_singleton] at hv
      obtain ⟨du', hdu⟩ := inv.queued u hu
      rw [old _ _ hdu] at h1
      simp only [Option.some.injEq] at h1
      rw [hv, find_cons] at h2
      simp only [if_true, Option.some.injEq] at h2
      have := inv.upper u du' hdu
      omega
  · intro v dv h
    rcases new v dv h with ⟨_, hd⟩ | ⟨_, hd⟩
    · omega
    · exact inv.upper v dv hd
  · intro v hv dv h
    rcases new v dv h with ⟨_, hd⟩ | ⟨_, hd⟩
    · omega
    · rcases List.mem_append.1 hv with h1 | h1
      · exact inv.lower v h1 dv hd
      · simp only [List.mem_singleton] at h1
        rw [h1, hw] at hd
        exact absurd hd (by simp)
  · intro v dv h hvq hvc x hx
    have hvq' : v ∉ q ∧ v ≠ w := by
      simpa [List.mem_append, not_or] using hvq
    rcases new v dv h with ⟨hv, _⟩ | ⟨_, hd⟩
    · exact absurd hv hvq'.2
    · obtain ⟨dx, hdx, hle⟩ := inv.expanded v dv hd hvq'.1 hvc x hx
      exact ⟨dx, old _ _ hdx, hle⟩

theorem dosScan_spec (adj : AdjList) (a b cur : String) (c : Int) (nbrs : List String)
    (hnb : ∀ w ∈ nbrs, w ∈ neighbors adj cur) (vis : List (String × Int)) (q : List String)
    (inv : DosInner adj a b cur c vis q) :
    (∃ r, dosScan b cur nbrs vis q = Sum.inl r ∧
      ∃ n : Nat, r = n ∧ Path adj a n b ∧ ∀ m, Path adj a m b → n ≤ m) ∨
    (∃ vis1 q1, dosScan b cur nbrs vis q = Sum.inr (vis1, q1) ∧
      DosInner adj a b cur c vis1 q1 ∧
      (∀ v d, find vis v = some d → find vis1 v = some d) ∧
      ∀ w ∈ nbrs, ∃ dw, find vis1 w = some dw) := by
  induction nbrs generalizing vis q with
  | nil => exact Or.inr ⟨vis, q, rfl, inv, fun _ _ h => h, by simp⟩
  | cons w rest ih =>
    have hrest : ∀ x ∈ rest, x ∈ neighbors adj cur :=
      fun x hx => hnb x (List.mem_cons_of_mem _ hx)
    have hedge : w ∈ neighbors adj cur := hnb w (List.mem_cons_self _ _)
    unfold dosScan
    cases hfw : find vis w with
    | some dw =>
      simp only [Option.isSome_some, if_true]
      rcases ih hrest vis q inv with h | ⟨vis1, q1, hs, inv1, mono, hall⟩
      · exact Or.inl h
      · refine Or.inr ⟨vis1, q1, hs, inv1, mono, ?_⟩
        intro x hx
        rcases List.mem_cons.1 hx with e | e
        · exact ⟨dw, by rw [e]; exact mono w dw hfw⟩
        · exact hall x e
    | none =>
      simp only [Option.isSome_none, Bool.false_eq_true, if_false, inv.current,
        Option.getD_some]
      by_cases hwb : w = b
      · left
        simp only [hwb, if_true]
        refine ⟨_, rfl, ?_⟩
        obtain ⟨n, hn, hp⟩ := inv.sound cur c inv.current
        refine ⟨n + 1, ?_, Path.step hp (hwb ▸ hedge), ?_⟩
        · rw [find_cons]
          simp only [if_true, Option.getD_some, hn]
          push_cast
          rfl
        · intro m hm
          by_contra hlt
          obtain ⟨d, hd, _⟩ := inv.complete m b hm (by omega)
          rw [inv.target] at hd
          exact absurd hd (by simp)
      · simp only [hwb, if_false]
        rcases ih hrest _ _ (inv.push w hfw hwb hedge) with h | ⟨vis1, q1, hs, inv1, mono, hall⟩
        · exact Or.inl h
        · refine Or.inr ⟨vis1, q1, hs, inv1, ?_, ?_⟩
          · intro v d h
            exact mono v d (find_push_old vis w (c + 1) hfw v d h)
          · intro x hx
            rcases List.mem_cons.1 hx with e | e
            · exact ⟨c + 1, by rw [e]; exact mono w (c + 1) (by rw [find_cons]; simp)⟩
            · exact hall x e

theorem DosOuter.closed_under_edges {adj : AdjList} {a b : String}
    {vis : List (String × Int)} (inv : DosOuter adj a b vis [])
    (n : Nat) (v : String) (hp : Path adj a n v) : ∃ d, find vis v = some d := by
  induction hp with
  | refl => exact ⟨0, inv.start⟩
  | step hp hw ih =>
    obtain ⟨d, hd⟩ := ih
    obtain ⟨dw, hdw, _⟩ := inv.expanded _ d hd (List.not_mem_nil _) _ hw
    exact ⟨dw, hdw⟩

theorem dosLoop_spec (adj0 : AdjList) (a b : String) (fuel : Nat) (adj : AdjList)
    (vis : List (String × Int)) (q : List String)
    (hadj : ∀ k, neighbors adj k = neighbors adj0 k) (inv : DosOuter adj0 a b vis q)
    (r : Int) (adj1 : AdjList) (h : dosLoop b fuel adj vis q = some (r, adj1)) :
    (∃ n : Nat, r = n ∧ Path adj0 a n b ∧ ∀ m, Path adj0 a m b → n ≤ m) ∨
    (r = -1 ∧ ∀ m, ¬ Path adj0 a m b) := by
  induction fuel generalizing adj vis q with
  | zero => simp [dosLoop] at h
  | succ fuel ih =>
    cases q with
    | nil =>
      simp only [dosLoop, Option.some.injEq, Prod.mk.injEq] at h
      refine Or.inr ⟨h.1.symm, ?_⟩
      intro m hm
      obtain ⟨d, hd⟩ := inv.closed_under_edges m b hm
      rw [inv.target] at hd
      exact absurd hd (by simp)
    | cons cur q =>
      simp only [dosLoop] at h
      obtain ⟨c, hc⟩ := inv.queued cur (List.mem_cons_self _ _)
      have hsorted := List.pairwise_cons.1 inv.sorted
      have inner : DosInner adj0 a b cur c vis q :=
        { start := inv.start
          sound := inv.sound
          target := inv.target
          current := hc
          queued := fun v hv => inv.queued v (List.mem_cons_of_mem _ hv)
          sorted := hsorted.2
          upper := fun w dw hw => inv.upper cur (List.mem_cons_self _ _) c hc w dw hw
          lower := fun v hv dv hdv => hsorted.1 v hv c dv hc hdv
          expanded := fun v dv hdv hvq hvc =>
            inv.expanded v dv hdv (by simp [hvq, hvc]) }
      rcases dosScan_spec adj0 a b cur c (neighbors adj cur) (by rw [hadj]; exact fun _ hw => hw)
          vis q inner with ⟨r1, hs, hres⟩ | ⟨vis1, q1, hs, inv1, _, hall⟩
      · rw [hs] at h
        simp only [Option.some.injEq, Prod.mk.injEq] at h
        rw [← h.1]
        exact Or.inl hres
      · rw [hs] at h
        refine ih (touch adj cur) vis1 q1 (fun k => by rw [neighbors_touch, hadj]) ?_ h
        exact
          { start := inv1.start
            sound := inv1.sound
            target := inv1.target
            queued := inv1.queued
            sorted := inv1.sorted
            upper := fun v hv dv hdv w dw hdw => by
              have h1 := inv1.upper w dw hdw
              have h2 := inv1.lower v hv dv hdv
              omega
            expanded := fun v dv hdv hvq w hw => by
              by_cases hvc : v = cur
              · rw [hvc, inv1.current] at hdv
                simp only [Option.some.injEq] at hdv
                rw [hvc, ← hadj] at hw
                obtain ⟨dw, hdw⟩ := hall w hw
                exact ⟨dw, hdw, by have := inv1.upper w dw hdw; omega⟩
              · exact inv1.expanded v dv hdv hvq hvc w hw }

theorem degreeOfSeparation_spec (adj : AdjList) (a b : String) (hab : a ≠ b) :
    ∃ r adj1, degreeOfSeparation adj a b = some (r, adj1) ∧
      ((∃ n : Nat, r = n ∧ Path adj a n b ∧ ∀ m, Path adj a m b → n ≤ m) ∨
        (r = -1 ∧ ∀ m, ¬ Path adj a m b)) := by
  obtain ⟨r, adj1, h⟩ := degreeOfSeparation_total adj a b
  refine ⟨r, adj1, h, ?_⟩
  unfold degreeOfSeparation at h
  refine dosLoop_spec adj a b _ adj [(a, 0)] [a] (fun _ => rfl) ?_ r adj1 h
  have hfind : ∀ v d, find [(a, (0 : Int))] v = some d → v = a ∧ d = 0 := by
    intro v d hv
    rw [find_cons] at hv
    by_cases e : a = v
    · simp only [e, if_true, Option.some.injEq] at hv
      exact ⟨e.symm, hv.symm⟩
    · simp [e, find] at hv
  constructor
  · simp [find]
  · intro v d hv
    obtain ⟨hv1, hd⟩ := hfind v d hv
    exact ⟨0, by simp [hd], hv1 ▸ Path.refl⟩
  · simp [find, hab]
  · intro v hv
    simp only [List.mem_singleton] at hv
    exact ⟨0, by simp [hv, find]⟩
  · exact List.pairwise_singleton _ _
  · intro v _ dv hdv w dw hdw
    have h1 := (hfind v dv hdv).2
    have h2 := (hfind w dw hdw).2
    omega
  · intro v dv hdv hvq
    exact absurd (List.mem_singleton.2 (hfind v dv hdv).1) hvq

/-! ## Paths: edges at the front, reversal, dead ends -/

theorem Path.cons {adj : AdjList} {a v b : String} {n : Nat}
    (hedge : v ∈ neighbors adj a) (hp : Path adj v n b) : Path adj a (n + 1) b := by
  induction hp with
  | refl => exact Path.step Path.refl hedge
  | step _ hw ih => exact Path.step ih hw

theorem symmetric_edges (adj : AdjList) (h : symmetric adj = true) (x y : String) :
    y ∈ neighbors adj x ↔ x ∈ neighbors adj y := by
  have key : ∀ x y, y ∈ neighbors adj x → x ∈ neighbors adj y := by
    intro x y hy
    unfold neighbors at hy
    cases hf : find adj x with
    | none => simp [hf] at hy
    | some v =>
      simp only [hf, Option.getD_some] at hy
      have h1 := (List.all_eq_true.1 h) (x, v) (find_mem adj x v hf)
      have h2 := (List.all_eq_true.1 h1) y hy
      simpa using h2
  exact ⟨key x y, key y x⟩

theorem Path.reverse {adj : AdjList} (hsym : ∀ x y, y ∈ neighbors adj x ↔ x ∈ neighbors adj y)
    {a b : String} {n : Nat} (hp : Path adj a n b) : Path adj b n a := by
  induction hp with
  | refl => exact Path.refl
  | step _ hw ih => exact Path.cons ((hsym _ _).1 hw) ih

theorem Path.of_no_friends {adj : AdjList} {a b : String} {n : Nat}
    (ha : neighbors adj a = []) (hp : Path adj a n b) : b = a := by
  induction hp with
  | refl => rfl
  | step _ hw ih =>
    rw [ih, ha] at hw
    exact absurd hw (List.not_mem_nil _)

theorem Path.target_listed {adj : AdjList} {a b : String} {n : Nat}
    (hp : Path adj a n b) : b = a ∨ b ∈ allFriends adj := by
  cases hp with
  | refl => exact Or.inl rfl
  | step _ hw => exact Or.inr (mem_allFriends_of_neighbors adj _ _ hw)

/-! ## The two breadth-first searches leave a loader-built map alone -/

theorem suggestScan_queue (df : List String) (depth : Int) (nbrs : List String)
    (st : SuggestState) :
    ∀ e ∈ (suggestScan df depth nbrs st).q, e ∈ st.q ∨ e.1 ∈ nbrs := by
  induction nbrs generalizing st with
  | nil =>
    intro e he
    exact Or.inl (by simpa [suggestScan] using he)
  | cons w rest ih =>
    intro e he
    unfold suggestScan at he
    split at he
    · rcases ih st e he with h | h
      · exact Or.inl h
      · exact Or.inr (List.mem_cons_of_mem _ h)
    · rcases ih _ e he with h | h
      · simp only [List.mem_append, List.mem_singleton] at h
        rcases h with h | h
        · exact Or.inl h
        · exact Or.inr (by simp [h])
      · exact Or.inr (List.mem_cons_of_mem _ h)

theorem suggestLoop_frame (df : List String) (fuel : Nat) (adj : AdjList)
    (st : SuggestState) (hc : closed adj = true)
    (hq : ∀ e ∈ st.q, hasKey adj e.1 = true)
    (adj1 : AdjList) (dm : List (String × Int))
    (hrun : suggestLoop df fuel adj st = some (adj1, dm)) : adj1 = adj := by
  induction fuel generalizing st with
  | zero => simp [suggestLoop] at hrun
  | succ fuel ih =>
    unfold suggestLoop at hrun
    cases hq1 : st.q with
    | nil =>
      simp only [hq1, Option.some.injEq, Prod.mk.injEq] at hrun
      exact hrun.1.symm
    | cons e q =>
      obtain ⟨current, depth⟩ := e
      simp only [hq1] at hrun
      rw [hq1] at hq
      split at hrun
      · exact ih _ (fun e he => hq e (List.mem_cons_of_mem _ he)) hrun
      · rw [touch_of_hasKey adj current (hq _ (List.mem_cons_self _ _))] at hrun
        refine ih _ ?_ hrun
        intro e he
        rcases suggestScan_queue df depth _ _ e he with h | h
        · exact hq e (List.mem_cons_of_mem _ h)
        · exact hasKey_of_closed adj hc _ (mem_allFriends_of_neighbors adj _ _ h)

theorem dosScan_queue (b cur : String) (nbrs : List String)
    (vis : List (String × Int)) (q : List String)
    (vis1 : List (String × Int)) (q1 : List String)
    (h : dosScan b cur nbrs vis q = Sum.inr (vis1, q1)) :
    ∀ v ∈ q1, v ∈ q ∨ v ∈ nbrs := by
  induction nbrs generalizing vis q with
  | nil =>
    simp only [dosScan, Sum.inr.injEq, Prod.mk.injEq] at h
    intro v hv
    exact Or.inl (h.2 ▸ hv)
  | cons w rest ih =>
    intro v hv
    unfold dosScan at h
    split at h
    · rcases ih vis q h v hv with h1 | h1
      · exact Or.inl h1
      · exact Or.inr (List.mem_cons_of_mem _ h1)
    · simp only at h
      split at h
      · exact absurd h (by simp)
      · rcases ih _ _ h v hv with h1 | h1
        · simp only [List.mem_append, List.mem_singleton] at h1
          rcases h1 with h1 | h1
          · exact Or.inl h1
          · exact Or.inr (by simp [h1])
        · exact Or.inr (List.mem_cons_of_mem _ h1)

theorem dosLoop_frame (b : String) (fuel : Nat) (adj : AdjList)
    (vis : List (String × Int)) (q : List String) (hc : closed adj = true)
    (hq : ∀ v ∈ q, hasKey adj v = true) (r : Int) (adj1 : AdjList)
    (h : dosLoop b fuel adj vis q = some (r, adj1)) : adj1 = adj := by
  induction fuel generalizing vis q with
  | zero => simp [dosLoop] at h
  | succ fuel ih =>
    cases q with
    | nil =>
      simp only [dosLoop, Option.some.injEq, Prod.mk.injEq] at h
      exact h.2.symm
    | cons cur q =>
      simp only [dosLoop] at h
      rw [touch_of_hasKey adj cur (hq _ (List.mem_cons_self _ _))] at h
      cases hs : dosScan b cur (neighbors adj cur) vis q with
      | inl r1 =>
        rw [hs] at h
        simp only [Option.some.injEq, Prod.mk.injEq] at h
        exact h.2.symm
      | inr p =>
        obtain ⟨vis1, q1⟩ := p
        rw [hs] at h
        refine ih vis1 q1 ?_ h
        intro v hv
        rcases dosScan_queue b cur _ vis q vis1 q1 hs v hv with h1 | h1
        · exact hq v (List.mem_cons_of_mem _ h1)
        · exact hasKey_of_closed adj hc _ (mem_allFriends_of_neighbors adj _ _ h1)

theorem suggestFriendsByDegree_frame (adj : AdjList) (u : String) (hc : closed adj = true)
    (hu : hasKey adj u = true) :
    ∃ res, suggestFriendsByDegree adj u = some (res, adj) := by
  obtain ⟨adj1, dm, hrun, hres⟩ := suggestFriendsByDegree_run adj u
  rw [touch_of_hasKey adj u hu] at hrun
  have := suggestLoop_frame _ _ adj _ hc (by simpa using hu) adj1 dm hrun
  exact ⟨_, this ▸ hres⟩

theorem degreeOfSeparation_frame (adj : AdjList) (a b : String) (hc : closed adj = true)
    (ha : hasKey adj a = true) :
    ∃ r, degreeOfSeparation adj a b = some (r, adj) := by
  obtain ⟨r, adj1, h⟩ := degreeOfSeparation_total adj a b
  have := dosLoop_frame b _ adj _ _ hc (by simpa using ha) r adj1 h
  exact ⟨r, this ▸ h⟩

/-! ## `dfs` and the sweep over the keys -/

theorem hasKey_touch_self (adj : AdjList) (k : String) : hasKey (touch adj k) k = true := by
  unfold touch
  split
  · assumption
  · rw [hasKey_iff]
    simp [keys]

theorem hasKey_touch_mono (adj : AdjList) (k w : String) (h : hasKey adj w = true) :
    hasKey (touch adj k) w = true := by
  rw [hasKey_iff] at h ⊢
  exact keys_touch_subset adj k h

theorem DfsStep.refl (st : DfsState) (h : st.visited.Nodup) : DfsStep st st [] :=
  { component := by simp
    visited := by simp
    nodup := h
    nbrs := fun _ => rfl
    friends := rfl
    keysMono := fun _ h => h
    listed := by simp }

theorem DfsStep.trans {st st1 st2 : DfsState} {n1 n2 : List String}
    (h1 : DfsStep st st1 n1) (h2 : DfsStep st1 st2 n2) : DfsStep st st2 (n1 ++ n2) :=
  { component := by rw [h2.component, h1.component, List.append_assoc]
    visited := by rw [h2.visited, h1.visited, List.reverse_append, List.append_assoc]
    nodup := h2.nodup
    nbrs := fun k => by rw [h2.nbrs, h1.nbrs]
    friends := by rw [h2.friends, h1.friends]
    keysMono := fun w h => h2.keysMono w (h1.keysMono w h)
    listed := fun w hw => by
      rcases List.mem_append.1 hw with h | h
      · exact h2.keysMono w (h1.listed w h)
      · exact h2.listed w h }

theorem DfsStep.subset {st st1 : DfsState} {new : List String} (h : DfsStep st st1 new) :
    st.visited ⊆ st1.visited := by
  intro x hx
  rw [h.visited]
  exact List.mem_append_right _ hx

theorem dfs_spec (U : List String) (fuel : Nat) (user : String) (st : DfsState)
    (huser : user ∈ U) (hnew : user ∉ st.visited)
    (hU : ∀ w ∈ allFriends st.adj, w ∈ U)
    (hfuel : unseen U st.visited < fuel) (hnd : st.visited.Nodup) :
    ∃ st1 new, dfs fuel user st = some st1 ∧ DfsStep st st1 (user :: new) ∧
      (closed st.adj = true → hasKey st.adj user = true → st1.adj = st.adj) := by
  induction fuel generalizing user st with
  | zero => omega
  | succ fuel ih =>
    have key : ∀ (nbrs : List String) (st : DfsState),
        (∀ w ∈ nbrs, w ∈ allFriends st.adj) → (∀ w ∈ allFriends st.adj, w ∈ U) →
        unseen U st.visited < fuel → st.visited.Nodup →
        ∃ st1 new, dfsNbrs (dfs fuel) nbrs st = some st1 ∧ DfsStep st st1 new ∧
          (closed st.adj = true → st1.adj = st.adj) := by
      intro nbrs
      induction nbrs with
      | nil =>
        intro st _ _ _ hnd
        exact ⟨st, [], rfl, DfsStep.refl st hnd, fun _ => rfl⟩
      | cons w rest ihn =>
        intro st hsub hU hfuel hnd
        have hrest : ∀ x ∈ rest, x ∈ allFriends st.adj :=
          fun x hx => hsub x (List.mem_cons_of_mem _ hx)
        have hw : w ∈ allFriends st.adj := hsub w (List.mem_cons_self _ _)
        unfold dfsNbrs
        by_cases hv : w ∈ st.visited
        · simp only [hv, if_true]
          exact ihn st hrest hU hfuel hnd
        · simp only [hv, if_false]
          obtain ⟨st1, new1, h1, step1, frame1⟩ := ih w st (hU w hw) hv hU hfuel hnd
          rw [h1]
          simp only
          obtain ⟨st2, new2, h2, step2, frame2⟩ := ihn st1
            (by rw [step1.friends]; exact hrest)
            (by rw [step1.friends]; exact hU)
            (lt_of_le_of_lt (unseen_mono U _ _ step1.subset) hfuel)
            step1.nodup
          refine ⟨st2, (w :: new1) ++ new2, h2, step1.trans step2, ?_⟩
          intro hc
          have e1 : st1.adj = st.adj := frame1 hc (hasKey_of_closed st.adj hc w hw)
          rw [frame2 (by rw [e1]; exact hc), e1]
    have hlt := unseen_cons_lt U st.visited user huser hnew
    obtain ⟨st1, new, h1, step, frame⟩ := key (neighbors st.adj user)
      { adj := touch st.adj user
        visited := user :: st.visited
        component := st.component ++ [user] }
      (by
        intro w hw
        simp only [allFriends_touch]
        exact mem_allFriends_of_neighbors _ _ _ hw)
      (by simpa only [allFriends_touch] using hU)
      (by simp only; omega)
      (List.nodup_cons.2 ⟨hnew, hnd⟩)
    refine ⟨st1, new, h1, ?_, ?_⟩
    · exact
        { component := by
            rw [step.component]
            simp
          visited := by
            rw [step.visited]
            simp
          nodup := step.nodup
          nbrs := fun k => by
            rw [step.nbrs]
            exact neighbors_touch _ _ _
          friends := by
            rw [step.friends]
            exact allFriends_touch _ _
          keysMono := fun w hw => step.keysMono w (hasKey_touch_mono _ _ _ hw)
          listed := fun w hw => by
            rcases List.mem_cons.1 hw with e | e
            · rw [e]
              exact step.keysMono user (hasKey_touch_self _ _)
            · exact step.listed w e }
    · intro hc hk
      have e : touch st.adj user = st.adj := touch_of_hasKey _ _ hk
      have := frame (by simp only [e]; exact hc)
      simp only [e] at this
      exact this

theorem sweep_spec (U : List String) (fuel : Nat) (hfuel : U.length < fuel)
    (ks : List String) (adj : AdjList) (visited : List String)
    (comps : List (List String)) (hks : ∀ k ∈ ks, k ∈ U)
    (hU : ∀ w ∈ allFriends adj, w ∈ U) (hnd : visited.Nodup) :
    ∃ news adj1, sweep fuel ks adj visited comps = some (comps ++ news, adj1) ∧
      (news.flatten.reverse ++ visited).Nodup ∧
      (∀ k ∈ ks, k ∈ news.flatten ∨ k ∈ visited) ∧
      (∀ c ∈ news, ∀ w ∈ c, hasKey adj1 w = true) ∧
      (∀ w, hasKey adj w = true → hasKey adj1 w = true) ∧
      (closed adj = true → (∀ k ∈ ks, hasKey adj k = true) → adj1 = adj) := by
  induction ks generalizing adj visited comps with
  | nil =>
    exact ⟨[], adj, by simp [sweep], by simpa using hnd, by simp, by simp,
      fun _ h => h, fun _ _ => rfl⟩
  | cons k ks ih =>
    have hks' : ∀ x ∈ ks, x ∈ U := fun x hx => hks x (List.mem_cons_of_mem _ hx)
    unfold sweep
    by_cases hv : k ∈ visited
    · simp only [hv, if_true]
      obtain ⟨news, adj1, h, hnodup, hcover, hlisted, hmono, hframe⟩ :=
        ih adj visited comps hks' hU hnd
      refine ⟨news, adj1, h, hnodup, ?_, hlisted, hmono, ?_⟩
      · intro x hx
        rcases List.mem_cons.1 hx with e | e
        · exact Or.inr (e ▸ hv)
        · exact hcover x e
      · intro hc hk
        exact hframe hc (fun x hx => hk x (List.mem_cons_of_mem _ hx))
    · simp only [hv, if_false]
      obtain ⟨st1, new, h1, step, frame1⟩ := dfs_spec U fuel k
        { adj := adj, visited := visited, component := [] }
        (hks k (List.mem_cons_self _ _)) hv hU
        (lt_of_le_of_lt (unseen_le U visited) hfuel) hnd
      rw [h1]
      simp only
      obtain ⟨news, adj2, h2, hnodup, hcover, hlisted, hmono, hframe⟩ :=
        ih st1.adj st1.visited (comps ++ [st1.component]) hks'
          (by rw [step.friends]; exact hU) step.nodup
      have hcomp : st1.component = k :: new := by
        rw [step.component]
        rfl
      have hvis : st1.visited = (k :: new).reverse ++ visited := step.visited
      refine ⟨(k :: new) :: news, adj2, ?_, ?_, ?_, ?_, ?_, ?_⟩
      · rw [h2, hcomp]
        simp
      · rw [hvis] at hnodup
        simpa [List.reverse_append, List.append_assoc] using hnodup
      · intro x hx
        rcases List.mem_cons.1 hx with e | e
        · left
          rw [e]
          simp
        · rcases hcover x e with h | h
          · left
            simp only [List.flatten_cons, List.mem_append]
            exact Or.inr h
          · rw [hvis] at h
            rcases List.mem_append.1 h with h | h
            · left
              simp only [List.flatten_cons, List.mem_append]
              exact Or.inl (List.mem_reverse.1 h)
            · exact Or.inr h
      · intro c hc w hw
        rcases List.mem_cons.1 hc with e | e
        · rw [e] at hw
          exact hmono w (step.listed w hw)
        · exact hlisted c e w hw
      · intro w hw
        exact hmono w (step.keysMono w hw)
      · intro hc hk
        have e1 : st1.adj = adj := frame1 hc (hk k (List.mem_cons_self _ _))
        rw [hframe (by rw [e1]; exact hc)
          (by rw [e1]; exact fun x hx => hk x (List.mem_cons_of_mem _ hx)), e1]

theorem sweepAll_spec (adj : AdjList) :
    ∃ found adj1, sweepAll adj = some (found, adj1) ∧
      found.flatten.Nodup ∧
      (∀ k ∈ keys adj, k ∈ found.flatten) ∧
      (∀ c ∈ found, ∀ w ∈ c, hasKey adj1 w = true) ∧
      (closed adj = true → adj1 = adj) := by
  obtain ⟨news, adj1, h, hnodup, hcover, hlisted, _, hframe⟩ :=
    sweep_spec (keys adj ++ allFriends adj) ((keys adj).length + (allFriends adj).length + 1)
      (by simp) (keys adj) adj [] []
      (fun k hk => List.mem_append_left _ hk)
      (fun w hw => List.mem_append_right _ hw) List.nodup_nil
  refine ⟨news, adj1, by simpa [sweepAll] using h, ?_, ?_, hlisted, ?_⟩
  · simpa using hnodup
  · intro k hk
    simpa using hcover k hk
  · intro hc
    exact hframe hc (fun k hk => (hasKey_iff adj k).2 hk)

/-! ## The loader: what one edge does to the map -/

theorem mem_keys_touch (adj : AdjList) (k x : String) :
    x ∈ keys (touch adj k) ↔ x ∈ keys adj ∨ x = k := by
  unfold touch
  split
  · rename_i h
    rw [hasKey_iff] at h
    constructor
    · exact fun hx => Or.inl hx
    · rintro (hx | hx)
      · exact hx
      · exact hx ▸ h
  · simp [keys]

theorem nodup_keys_touch (adj : AdjList) (k : String) (h : (keys adj).Nodup) :
    (keys (touch adj k)).Nodup := by
  unfold touch
  split
  · exact h
  · rename_i hk
    have hk' : k ∉ keys adj := fun hin => hk ((hasKey_iff adj k).2 hin)
    simp only [keys, List.map_append, List.map_cons, List.map_nil] at hk' ⊢
    rw [List.nodup_append]
    refine ⟨h, List.nodup_singleton _, ?_⟩
    intro x hx hx'
    simp only [List.mem_singleton] at hx'
    exact hk' (hx' ▸ hx)

theorem mem_keys_pushBack (adj : AdjList) (k f x : String) :
    x ∈ keys (pushBack adj k f) ↔ x ∈ keys adj ∨ x = k := by
  induction adj with
  | nil => simp [pushBack, keys]
  | cons e rest ih =>
    obtain ⟨k1, v1⟩ := e
    unfold pushBack
    split
    · rename_i h
      simp only [keys, List.map_cons, List.mem_cons]
      constructor
      · exact fun hx => Or.inl hx
      · rintro (hx | hx)
        · exact hx
        · exact Or.inl (hx.trans h.symm)
    · simp only [keys, List.map_cons, List.mem_cons] at ih ⊢
      rw [ih]
      exact or_assoc.symm

theorem nodup_keys_pushBack (adj : AdjList) (k f : String) (h : (keys adj).Nodup) :
    (keys (pushBack adj k f)).Nodup := by
  induction adj with
  | nil => simp [pushBack, keys]
  | cons e rest ih =>
    obtain ⟨k1, v1⟩ := e
    have h' : k1 ∉ keys rest ∧ (keys rest).Nodup := by
      simpa [keys] using h
    unfold pushBack
    split
    · simpa [keys] using h
    · rename_i hk
      have hmem := mem_keys_pushBack rest k f k1
      simp only [keys, List.map_cons, List.nodup_cons] at hmem ⊢
      refine ⟨?_, ih h'.2⟩
      rw [hmem]
      rintro (hx | hx)
      · exact h'.1 hx
      · exact hk hx

theorem neighbors_pushBack (adj : AdjList) (k f k' : String) :
    neighbors (pushBack adj k f) k' =
      if k = k' then neighbors adj k' ++ [f] else neighbors adj k' := by
  unfold neighbors
  induction adj with
  | nil =>
    by_cases h : k = k' <;> simp [pushBack, find, h]
  | cons e rest ih =>
    obtain ⟨k1, v1⟩ := e
    unfold pushBack
    by_cases h1 : k1 = k
    · by_cases h2 : k = k'
      · simp [find, h1, h2]
      · have : ¬ k1 = k' := fun e => h2 (h1 ▸ e)
        simp [find, h1, h2]
    · by_cases h2 : k1 = k'
      · have : ¬ k = k' := fun e => h1 (h2.trans e.symm)
        subst h2
        simp [find, h1, this]
      · simp only [h1, if_false, find, h2]
        exact ih

theorem mem_allFriends_pushBack (adj : AdjList) (k f x : String) :
    x ∈ allFriends (pushBack adj k f) ↔ x ∈ allFriends adj ∨ x = f := by
  induction adj with
  | nil => simp [pushBack, allFriends]
  | cons e rest ih =>
    obtain ⟨k1, v1⟩ := e
    unfold pushBack
    split
    · simp only [allFriends, List.mem_append, List.mem_singleton]
      tauto
    · simp only [allFriends, List.mem_append, ih]
      tauto

theorem closed_iff (adj : AdjList) :
    closed adj = true ↔ ∀ x ∈ allFriends adj, x ∈ keys adj := by
  unfold closed
  rw [List.all_eq_true]
  constructor
  · exact fun h x hx => (hasKey_iff adj x).1 (h x hx)
  · exact fun h x hx => (hasKey_iff adj x).2 (h x hx)

theorem closed_touch (adj : AdjList) (k : String) (h : closed adj = true) :
    closed (touch adj k) = true := by
  rw [closed_iff] at h ⊢
  intro x hx
  rw [allFriends_touch] at hx
  exact keys_touch_subset adj k (h x hx)

theorem closed_addEdge (adj : AdjList) (e : String × String) (h : closed adj = true) :
    closed (addEdge adj e) = true := by
  rw [closed_iff] at h ⊢
  intro x hx
  unfold addEdge at hx ⊢
  rw [allFriends_touch, mem_allFriends_pushBack] at hx
  rw [mem_keys_touch, mem_keys_pushBack]
  rcases hx with hx | hx
  · exact Or.inl (Or.inl (h x hx))
  · exact Or.inr hx

theorem foldl_addEdge_spec (edges : List (String × String)) (adj0 : AdjList) :
    (∀ k, neighbors (edges.foldl addEdge adj0) k =
        neighbors adj0 k ++ (edges.filter (fun e => decide (e.1 = k))).map Prod.snd) ∧
      (∀ k, k ∈ keys (edges.foldl addEdge adj0) ↔
        k ∈ keys adj0 ∨ ∃ e ∈ edges, e.1 = k ∨ e.2 = k) ∧
      ((keys adj0).Nodup → (keys (edges.foldl addEdge adj0)).Nodup) ∧
      (closed adj0 = true → closed (edges.foldl addEdge adj0) = true) := by
  induction edges generalizing adj0 with
  | nil => simp
  | cons e rest ih =>
    obtain ⟨hn, hk, hd, hc⟩ := ih (addEdge adj0 e)
    simp only [List.foldl_cons]
    refine ⟨?_, ?_, ?_, ?_⟩
    · intro k
      rw [hn k]
      unfold addEdge
      rw [neighbors_touch, neighbors_pushBack]
      by_cases h : e.1 = k
      · simp [h, List.filter_cons]
      · simp [h, List.filter_cons]
    · intro k
      rw [hk k]
      unfold addEdge
      rw [mem_keys_touch, mem_keys_pushBack]
      simp only [List.mem_cons, exists_eq_or_imp]
      constructor
      · rintro (((h | h) | h) | h)
        · exact Or.inl h
        · exact Or.inr (Or.inl (Or.inl h.symm))
        · exact Or.inr (Or.inl (Or.inr h.symm))
        · exact Or.inr (Or.inr h)
      · rintro (h | (h | h) | h)
        · exact Or.inl (Or.inl (Or.inl h))
        · exact Or.inl (Or.inl (Or.inr h.symm))
        · exact Or.inl (Or.inr h.symm)
        · exact Or.inr h
    · intro h
      apply hd
      unfold addEdge
      exact nodup_keys_touch _ _ (nodup_keys_pushBack _ _ _ h)
    · intro h
      exact hc (closed_addEdge adj0 e h)

/-! ## `mostInfluentialUsers`: the centrality map -/

theorem assign_fresh (m : List (String × Int)) (k : String) (v : Int)
    (h : k ∉ m.map Prod.fst) : assign m k v = m ++ [(k, v)] := by
  induction m with
  | nil => rfl
  | cons e rest ih =>
    obtain ⟨k1, v1⟩ := e
    simp only [List.map_cons, List.mem_cons, not_or] at h
    unfold assign
    rw [if_neg (Ne.symm h.1), ih h.2]
    rfl

theorem centralityOf_nodup (adj : AdjList) (acc : List (String × Int))
    (hnd : (keys adj).Nodup) (hfresh : ∀ k ∈ keys adj, k ∉ acc.map Prod.fst) :
    centralityOf adj acc = acc ++ adj.map (fun e => (e.1, (e.2.length : Int))) := by
  induction adj generalizing acc with
  | nil => simp [centralityOf]
  | cons e rest ih =>
    obtain ⟨k, v⟩ := e
    have h' : k ∉ keys rest ∧ (keys rest).Nodup := by
      simpa [keys] using hnd
    unfold centralityOf
    rw [assign_fresh acc k _ (hfresh k (by simp [keys]))]
    rw [ih _ h'.2]
    · simp
    · intro x hx
      simp only [List.map_append, List.map_cons, List.map_nil, List.mem_append,
        List.mem_singleton, not_or]
      refine ⟨hfresh x (by simp only [keys, List.map_cons, List.mem_cons]; exact Or.inr hx), ?_⟩
      intro e
      exact h'.1 (e ▸ hx)

theorem find_of_mem_nodup (adj : AdjList) (k : String) (v : List String)
    (hnd : (keys adj).Nodup) (h : (k, v) ∈ adj) : find adj k = some v := by
  induction adj with
  | nil => simp at h
  | cons e rest ih =>
    obtain ⟨k1, v1⟩ := e
    have h' : k1 ∉ keys rest ∧ (keys rest).Nodup := by
      simpa [keys] using hnd
    rcases List.mem_cons.1 h with e1 | e1
    · simp only [Prod.mk.injEq] at e1
      simp [find, e1.1, e1.2]
    · have hk : k ∈ keys rest := List.mem_map_of_mem Prod.fst e1
      have hne : k1 ≠ k := fun e => h'.1 (e ▸ hk)
      simp only [find, hne, if_false]
      exact ih h'.2 e1

/-! ## `suggestFriendsByDegree`: the bounded search reaches exactly distance 3 -/

theorem Path.zero_eq {adj : AdjList} {a b : String} (hp : Path adj a 0 b) : b = a := by
  cases hp
  rfl

theorem Path.one_mem {adj : AdjList} {a b : String} (hp : Path adj a 1 b) :
    b ∈ neighbors adj a := by
  cases hp with
  | step hp1 hw =>
    rw [hp1.zero_eq] at hw
    exact hw

theorem bump_fresh (m : List (String × Int)) (k : String) (h : k ∉ m.map Prod.fst) :
    bump m k = m ++ [(k, 1)] := by
  induction m with
  | nil => rfl
  | cons e rest ih =>
    obtain ⟨k1, v1⟩ := e
    simp only [List.map_cons, List.mem_cons, not_or] at h
    unfold bump
    rw [if_neg (Ne.symm h.1), ih h.2]
    rfl

theorem SugInner.visit {adj : AdjList} {u : String} {df : List String} {cur : String}
    {c : Int} {dep : String → Int} {st : SuggestState}
    (inv : SugInner adj u df cur c dep st) (w : String) (hw : w ∉ st.visited)
    (hedge : w ∈ neighbors adj cur) :
    SugInner adj u df cur c (Function.update dep w (c + 1))
      { visited := w :: st.visited
        degreeMap := if w ∈ df then st.degreeMap else bump st.degreeMap w
        q := st.q ++ [(w, c + 1)] } := by
  have hsame : Function.update dep w (c + 1) w = c + 1 := Function.update_same _ _ _
  have hold : ∀ v ∈ st.visited, Function.update dep w (c + 1) v = dep v := by
    intro v hv
    exact Function.update_noteq (fun (e : v = w) => hw (e ▸ hv)) _ _
  have hfresh : w ∉ st.degreeMap.map Prod.fst := by
    intro hin
    obtain ⟨p, hp, hpw⟩ := List.mem_map.1 hin
    exact hw (hpw ▸ (inv.scored p hp).1)
  have hdm : (if w ∈ df then st.degreeMap else bump st.degreeMap w) =
      if w ∈ df then st.degreeMap else st.degreeMap ++ [(w, 1)] := by
    rw [bump_fresh _ _ hfresh]
  constructor
  · exact ⟨List.mem_cons_of_mem _ inv.start.1, by rw [hold u inv.start.1]; exact inv.start.2⟩
  · intro v hv
    rcases List.mem_cons.1 hv with e | e
    · obtain ⟨n, hn, _, hp⟩ := inv.sound cur inv.current.1
      have hc := inv.current.2
      refine ⟨n + 1, ?_, ?_, ?_⟩
      · rw [e, hsame]
        push_cast
        omega
      · omega
      · rw [e]
        exact Path.step hp hedge
    · rw [hold v e]
      exact inv.sound v e
  · exact ⟨List.mem_cons_of_mem _ inv.current.1,
      by rw [hold cur inv.current.1]; exact inv.current.2.1, inv.current.2.2⟩
  · intro e he
    rcases List.mem_append.1 he with h | h
    · have := inv.queued e h
      exact ⟨List.mem_cons_of_mem _ this.1, by rw [hold _ this.1]; exact this.2⟩
    · simp only [List.mem_singleton] at h
      rw [h]
      exact ⟨List.mem_cons_self _ _, hsame.symm⟩
  · show (st.q ++ [(w, c + 1)]).Pairwise (fun e f => e.2 ≤ f.2)
    rw [List.pairwise_append]
    refine ⟨inv.sorted, List.pairwise_singleton _ _, ?_⟩
    intro e he f hf
    simp only [List.mem_singleton] at hf
    have h1 := inv.queued e he
    have h2 := inv.upper e.1 h1.1
    rw [hf]
    simp only
    omega
  · intro v hv
    rcases List.mem_cons.1 hv with e | e
    · rw [e, hsame]
    · rw [hold v e]
      exact inv.upper v e
  · intro e he
    rcases List.mem_append.1 he with h | h
    · exact inv.lower e h
    · simp only [List.mem_singleton] at h
      rw [h]
      simp
  · intro v hv hq hvc hd x hx
    have hvw : v ≠ w := by
      intro e
      exact hq (w, c + 1) (List.mem_append_right _ (List.mem_singleton.2 rfl)) e.symm
    have hv' : v ∈ st.visited := by
      rcases List.mem_cons.1 hv with e | e
      · exact absurd e hvw
      · exact e
    rw [hold v hv'] at hd ⊢
    have := inv.expanded v hv' (fun e he => hq e (List.mem_append_left _ he)) hvc hd x hx
    exact ⟨List.mem_cons_of_mem _ this.1, by rw [hold x this.1]; exact this.2⟩
  · intro p hp
    simp only at hp
    rw [hdm] at hp
    by_cases hwd : w ∈ df
    · rw [if_pos hwd] at hp
      have := inv.scored p hp
      exact ⟨List.mem_cons_of_mem _ this.1, this.2⟩
    · rw [if_neg hwd] at hp
      rcases List.mem_append.1 hp with h | h
      · have := inv.scored p h
        exact ⟨List.mem_cons_of_mem _ this.1, this.2⟩
      · simp only [List.mem_singleton] at h
        rw [h]
        exact ⟨List.mem_cons_self _ _, hwd, rfl⟩
  · intro v hv hvd
    simp only
    rw [hdm]
    by_cases hwd : w ∈ df
    · rw [if_pos hwd]
      rcases List.mem_cons.1 hv with e | e
      · exact absurd (e ▸ hwd) hvd
      · exact inv.covered v e hvd
    · rw [if_neg hwd]
      simp only [List.map_append, List.mem_append, List.map_cons, List.map_nil,
        List.mem_singleton]
      rcases List.mem_cons.1 hv with e | e
      · exact Or.inr e
      · exact Or.inl (inv.covered v e hvd)
  · simp only
    rw [hdm]
    by_cases hwd : w ∈ df
    · rw [if_pos hwd]
      exact inv.distinct
    · rw [if_neg hwd]
      simp only [List.map_append, List.map_cons, List.map_nil]
      rw [List.nodup_append]
      refine ⟨inv.distinct, List.nodup_singleton _, ?_⟩
      intro x hx hx'
      simp only [List.mem_singleton] at hx'
      exact hfresh (hx' ▸ hx)

theorem suggestScan_inv (adj : AdjList) (u : String) (df : List String) (cur : String)
    (c : Int) (nbrs : List String) (hnb : ∀ w ∈ nbrs, w ∈ neighbors adj cur)
    (dep : String → Int) (st : SuggestState) (inv : SugInner adj u df cur c dep st) :
    ∃ dep1, SugInner adj u df cur c dep1 (suggestScan df c nbrs st) ∧
      st.visited ⊆ (suggestScan df c nbrs st).visited ∧
      ∀ w ∈ nbrs, w ∈ (suggestScan df c nbrs st).visited := by
  induction nbrs generalizing dep st with
  | nil => exact ⟨dep, inv, fun _ h => h, by simp⟩
  | cons w rest ih =>
    have hrest : ∀ x ∈ rest, x ∈ neighbors adj cur :=
      fun x hx => hnb x (List.mem_cons_of_mem _ hx)
    unfold suggestScan
    by_cases hv : w ∈ st.visited
    · simp only [hv, if_true]
      obtain ⟨dep1, inv1, hsub, hall⟩ := ih hrest dep st inv
      refine ⟨dep1, inv1, hsub, ?_⟩
      intro x hx
      rcases List.mem_cons.1 hx with e | e
      · exact e ▸ hsub hv
      · exact hall x e
    · simp only [hv, if_false]
      obtain ⟨dep1, inv1, hsub, hall⟩ :=
        ih hrest _ _ (inv.visit w hv (hnb w (List.mem_cons_self _ _)))
      refine ⟨dep1, inv1, fun x hx => hsub (List.mem_cons_of_mem _ hx), ?_⟩
      intro x hx
      rcases List.mem_cons.1 hx with e | e
      · exact e ▸ hsub (List.mem_cons_self _ _)
      · exact hall x e

theorem suggestLoop_inv (adj0 : AdjList) (u : String) (df : List String) (fuel : Nat)
    (adj : AdjList) (st : SuggestState) (dep : String → Int)
    (hadj : ∀ k, neighbors adj k = neighbors adj0 k) (inv : SugOuter adj0 u df dep st)
    (adj1 : AdjList) (dm : List (String × Int))
    (h : suggestLoop df fuel adj st = some (adj1, dm)) :
    ∃ dep1 vis1, SugOuter adj0 u df dep1 { visited := vis1, degreeMap := dm, q := [] } := by
  induction fuel generalizing adj st dep with
  | zero => simp [suggestLoop] at h
  | succ fuel ih =>
    obtain ⟨visited, degreeMap, q⟩ := st
    unfold suggestLoop at h
    cases q with
    | nil =>
      simp only [Option.some.injEq, Prod.mk.injEq] at h
      rw [← h.2]
      exact ⟨dep, visited, inv⟩
    | cons e q =>
      obtain ⟨cur, c⟩ := e
      simp only at h
      have hhead := inv.queued (cur, c) (List.mem_cons_self _ _)
      have hsorted := List.pairwise_cons.1 inv.sorted
      simp only at hhead
      split at h
      · rename_i hc
        refine ih adj _ dep hadj ?_ h
        exact
          { start := inv.start
            sound := inv.sound
            queued := fun e he => inv.queued e (List.mem_cons_of_mem _ he)
            sorted := hsorted.2
            upper := fun e he => inv.upper e (List.mem_cons_of_mem _ he)
            expanded := fun v hv hq hd => by
              apply inv.expanded v hv ?_ hd
              intro e he
              rcases List.mem_cons.1 he with e1 | e1
              · rw [e1]
                intro e2
                simp only at e2
                rw [← e2, ← hhead.2] at hd
                omega
              · exact hq e e1
            scored := inv.scored
            covered := inv.covered
            distinct := inv.distinct }
      · rename_i hc
        have inner : SugInner adj0 u df cur c dep
            { visited := visited, degreeMap := degreeMap, q := q } :=
          { start := inv.start
            sound := inv.sound
            current := ⟨hhead.1, hhead.2.symm, by omega⟩
            queued := fun e he => inv.queued e (List.mem_cons_of_mem _ he)
            sorted := hsorted.2
            upper := fun w hw => inv.upper (cur, c) (List.mem_cons_self _ _) w hw
            lower := fun e he => hsorted.1 e he
            expanded := fun v hv hq hvc hd => by
              apply inv.expanded v hv ?_ hd
              intro e he
              rcases List.mem_cons.1 he with e1 | e1
              · rw [e1]
                exact Ne.symm hvc
              · exact hq e e1
            scored := inv.scored
            covered := inv.covered
            distinct := inv.distinct }
        obtain ⟨dep1, inv1, _, hall⟩ := suggestScan_inv adj0 u df cur c (neighbors adj cur)
          (by rw [hadj]; exact fun _ hw => hw) dep _ inner
        refine ih (touch adj cur) _ dep1 (fun k => by rw [neighbors_touch, hadj]) ?_ h
        exact
          { start := inv1.start
            sound := inv1.sound
            queued := inv1.queued
            sorted := inv1.sorted
            upper := fun e he w hw => by
              have h1 := inv1.upper w hw
              have h2 := inv1.lower e he
              omega
            expanded := fun v hv hq hd w hw => by
              by_cases hvc : v = cur
              · rw [hvc, ← hadj] at hw
                refine ⟨hall w hw, ?_⟩
                have h1 := inv1.upper w (hall w hw)
                rw [hvc, inv1.current.2.1]
                exact h1
              · exact inv1.expanded v hv hq hvc hd w hw
            scored := inv1.scored
            covered := inv1.covered
            distinct := inv1.distinct }

theorem SugOuter.reaches_within_three {adj : AdjList} {u : String} {df : List String}
    {dep : String → Int} {vis : List String} {dm : List (String × Int)}
    (inv : SugOuter adj u df dep { visited := vis, degreeMap := dm, q := [] })
    (n : Nat) (v : String) (hp : Path adj u n v) (hn : n ≤ 3) :
    v ∈ vis ∧ dep v ≤ n := by
  induction hp with
  | refl => exact ⟨inv.start.1, by rw [inv.start.2]; simp⟩
  | step hp hw ih =>
    obtain ⟨hv, hd⟩ := ih (by omega)
    have := inv.expanded _ hv (by simp) (by omega) _ hw
    exact ⟨this.1, by push_cast; omega⟩

theorem SugOuter.candidates {adj : AdjList} {u : String} {dep : String → Int}
    {vis : List String} {dm : List (String × Int)}
    (inv : SugOuter adj u (u :: neighbors adj u) dep
      { visited := vis, degreeMap := dm, q := [] }) (w : String) :
    w ∈ dm.map Prod.fst ↔ DistIs adj u 2 w ∨ DistIs adj u 3 w := by
  constructor
  · intro hw
    obtain ⟨p, hp, hpw⟩ := List.mem_map.1 hw
    obtain ⟨hvis, hdf, _⟩ := inv.scored p hp
    rw [hpw] at hvis hdf
    simp only [List.mem_cons, not_or] at hdf
    obtain ⟨n, hn, hn3, hpath⟩ := inv.sound w hvis
    have hmin : ∀ m, Path adj u m w → n ≤ m := by
      intro m hm
      by_cases hm3 : m ≤ 3
      · have := (inv.reaches_within_three m w hm hm3).2
        omega
      · omega
    have h0 : n ≠ 0 := by
      intro e
      rw [e] at hpath
      exact hdf.1 hpath.zero_eq
    have h1 : n ≠ 1 := by
      intro e
      rw [e] at hpath
      exact hdf.2 hpath.one_mem
    have : n = 2 ∨ n = 3 := by omega
    rcases this with e | e
    · exact Or.inl ⟨e ▸ hpath, fun m hm => e ▸ hmin m hm⟩
    · exact Or.inr ⟨e ▸ hpath, fun m hm => e ▸ hmin m hm⟩
  · intro hw
    have key : ∀ n, 2 ≤ n → n ≤ 3 → DistIs adj u n w → w ∈ dm.map Prod.fst := by
      intro n h2 h3 hd
      apply inv.covered w (inv.reaches_within_three n w hd.1 h3).1
      simp only [List.mem_cons, not_or]
      constructor
      · intro e
        have := hd.2 0 (e ▸ Path.refl)
        omega
      · intro e
        have := hd.2 1 (Path.step Path.refl e)
        omega
    rcases hw with h | h
    · exact key 2 (by omega) (by omega) h
    · exact key 3 (by omega) (by omega) h

theorem suggestFriendsByDegree_final (adj : AdjList) (u : String) :
    ∃ adj1 dm dep vis,
      suggestLoop (u :: neighbors adj u) ((allFriends adj).length + 2) (touch adj u)
        { visited := [u], degreeMap := [], q := [(u, 0)] } = some (adj1, dm) ∧
      suggestFriendsByDegree adj u = some ((sortBy byScore dm).take 5, adj1) ∧
      SugOuter adj u (u :: neighbors adj u) dep
        { visited := vis, degreeMap := dm, q := [] } := by
  obtain ⟨adj1, dm, hrun, hres⟩ := suggestFriendsByDegree_run adj u
  obtain ⟨dep1, vis1, inv⟩ := suggestLoop_inv adj u (u :: neighbors adj u) _ (touch adj u)
    { visited := [u], degreeMap := [], q := [(u, 0)] } (fun _ => 0)
    (fun k => neighbors_touch adj u k)
    { start := by simp
      sound := fun v hv => by
        simp only [List.mem_singleton] at hv
        exact ⟨0, by simp, by omega, hv ▸ Path.refl⟩
      queued := by simp
      sorted := List.pairwise_singleton _ _
      upper := by simp
      expanded := fun v hv hq => by
        simp only [List.mem_singleton] at hv
        exact absurd hv.symm (hq (u, 0) (List.mem_singleton.2 rfl))
      scored := by simp
      covered := fun v hv hd => by
        simp only [List.mem_singleton] at hv
        exact absurd (hv ▸ List.mem_cons_self _ _) hd
      distinct := by simp }
    adj1 dm hrun
  exact ⟨adj1, dm, dep1, vis1, hrun, hres, inv⟩

/-! ## `dfs`: what a component contains -/

theorem Path.append {adj : AdjList} {a b c : String} {n m : Nat}
    (h1 : Path adj a n b) (h2 : Path adj b m c) : Path adj a (n + m) c := by
  induction h2 with
  | refl => exact h1
  | step _ hw ih => exact Path.step ih hw

theorem dfs_reach (adj0 : AdjList) (fuel : Nat) (user : String) (st st1 : DfsState)
    (hadj : ∀ k, neighbors st.adj k = neighbors adj0 k)
    (h : dfs fuel user st = some st1) :
    (∀ k, neighbors st1.adj k = neighbors adj0 k) ∧
      st.visited ⊆ st1.visited ∧ user ∈ st1.visited ∧
      ∀ w ∈ st1.visited, w ∈ st.visited ∨
        ((∃ n, Path adj0 user n w) ∧ ∀ x ∈ neighbors adj0 w, x ∈ st1.visited) := by
  induction fuel generalizing user st st1 with
  | zero => simp [dfs] at h
  | succ fuel ih =>
    have key : ∀ (nbrs : List String) (st st1 : DfsState),
        (∀ k, neighbors st.adj k = neighbors adj0 k) →
        dfsNbrs (dfs fuel) nbrs st = some st1 →
        (∀ k, neighbors st1.adj k = neighbors adj0 k) ∧
          st.visited ⊆ st1.visited ∧ (∀ x ∈ nbrs, x ∈ st1.visited) ∧
          ∀ w ∈ st1.visited, w ∈ st.visited ∨
            ((∃ x ∈ nbrs, ∃ n, Path adj0 x n w) ∧
              ∀ y ∈ neighbors adj0 w, y ∈ st1.visited) := by
      intro nbrs
      induction nbrs with
      | nil =>
        intro st st1 hadj h
        simp only [dfsNbrs, Option.some.injEq] at h
        subst h
        exact ⟨hadj, fun _ hx => hx, by simp, fun w hw => Or.inl hw⟩
      | cons w rest ihn =>
        intro st st1 hadj h
        unfold dfsNbrs at h
        by_cases hv : w ∈ st.visited
        · simp only [hv, if_true] at h
          obtain ⟨h1, h2, h3, h4⟩ := ihn st st1 hadj h
          refine ⟨h1, h2, ?_, ?_⟩
          · intro x hx
            rcases List.mem_cons.1 hx with e | e
            · exact e ▸ h2 hv
            · exact h3 x e
          · intro v hv1
            rcases h4 v hv1 with h5 | ⟨⟨x, hx, hp⟩, h6⟩
            · exact Or.inl h5
            · exact Or.inr ⟨⟨x, List.mem_cons_of_mem _ hx, hp⟩, h6⟩
        · simp only [hv, if_false] at h
          cases hd : dfs fuel w st with
          | none => simp [hd] at h
          | some st2 =>
            simp only [hd] at h
            obtain ⟨a1, a2, a3, a4⟩ := ih w st st2 hadj hd
            obtain ⟨b1, b2, b3, b4⟩ := ihn st2 st1 a1 h
            refine ⟨b1, fun x hx => b2 (a2 hx), ?_, ?_⟩
            · intro x hx
              rcases List.mem_cons.1 hx with e | e
              · exact e ▸ b2 a3
              · exact b3 x e
            · intro v hv1
              rcases b4 v hv1 with h5 | ⟨⟨x, hx, hp⟩, h6⟩
              · rcases a4 v h5 with h7 | ⟨hp, h8⟩
                · exact Or.inl h7
                · exact Or.inr ⟨⟨w, List.mem_cons_self _ _, hp⟩,
                    fun y hy => b2 (h8 y hy)⟩
              · exact Or.inr ⟨⟨x, List.mem_cons_of_mem _ hx, hp⟩, h6⟩
    simp only [dfs] at h
    obtain ⟨h1, h2, h3, h4⟩ := key _ _ st1 (fun k => by
      simp only [neighbors_touch]
      exact hadj k) h
    simp only at h2 h4
    refine ⟨h1, fun x hx => h2 (List.mem_cons_of_mem _ hx), h2 (List.mem_cons_self _ _), ?_⟩
    intro v hv
    rcases h4 v hv with h5 | ⟨⟨x, hx, n, hp⟩, h6⟩
    · rcases List.mem_cons.1 h5 with e | e
      · right
        refine ⟨⟨0, e ▸ Path.refl⟩, ?_⟩
        intro y hy
        rw [e, ← hadj] at hy
        exact h3 y hy
      · exact Or.inl e
    · rw [hadj] at hx
      exact Or.inr ⟨⟨n + 1, Path.cons hx hp⟩, h6⟩

theorem sweep_reach (adj0 : AdjList)
    (hsym : ∀ x y, y ∈ neighbors adj0 x ↔ x ∈ neighbors adj0 y)
    (U : List String) (fuel : Nat) (hfuel : U.length < fuel)
    (ks : List String) (adj : AdjList) (visited : List String)
    (comps : List (List String)) (hadj : ∀ k, neighbors adj k = neighbors adj0 k)
    (hks : ∀ k ∈ ks, k ∈ U) (hU : ∀ w ∈ allFriends adj, w ∈ U) (hnd : visited.Nodup)
    (hclosed : ∀ v ∈ visited, ∀ w ∈ neighbors adj0 v, w ∈ visited) :
    ∃ news adj1, sweep fuel ks adj visited comps = some (comps ++ news, adj1) ∧
      ∀ c ∈ news, (∀ v ∈ c, ∀ w ∈ neighbors adj0 v, w ∈ c) ∧
        (∀ v ∈ c, ∀ w ∈ c, ∃ n, Path adj0 v n w) := by
  induction ks generalizing adj visited comps with
  | nil => exact ⟨[], adj, by simp [sweep], by simp⟩
  | cons k ks ih =>
    have hks' : ∀ x ∈ ks, x ∈ U := fun x hx => hks x (List.mem_cons_of_mem _ hx)
    unfold sweep
    by_cases hv : k ∈ visited
    · simp only [hv, if_true]
      exact ih adj visited comps hadj hks' hU hnd hclosed
    · simp only [hv, if_false]
      obtain ⟨st1, new, h1, step, _⟩ := dfs_spec U fuel k
        { adj := adj, visited := visited, component := [] }
        (hks k (List.mem_cons_self _ _)) hv hU
        (lt_of_le_of_lt (unseen_le U visited) hfuel) hnd
      obtain ⟨r1, _, _, r4⟩ := dfs_reach adj0 fuel k _ st1 hadj h1
      have hcomp : st1.component = k :: new := by
        rw [step.component]
        rfl
      have hvis : st1.visited = (k :: new).reverse ++ visited := step.visited
      have hdisj : ∀ v ∈ k :: new, v ∉ visited := by
        have hn := step.nodup
        rw [hvis, List.nodup_append] at hn
        intro v hv1 hv2
        exact hn.2.2 (List.mem_reverse.2 hv1) hv2
      have hmem : ∀ v, v ∈ st1.visited ↔ v ∈ k :: new ∨ v ∈ visited := by
        intro v
        rw [hvis, List.mem_append, List.mem_reverse]
      have hfacts : ∀ v ∈ k :: new,
          (∃ n, Path adj0 k n v) ∧ ∀ x ∈ neighbors adj0 v, x ∈ k :: new := by
        intro v hv1
        rcases r4 v ((hmem v).2 (Or.inl hv1)) with h5 | ⟨hp, h6⟩
        · exact absurd h5 (hdisj v hv1)
        · refine ⟨hp, ?_⟩
          intro x hx
          rcases (hmem x).1 (h6 x hx) with h7 | h7
          · exact h7
          · exact absurd (hclosed x h7 v ((hsym v x).1 hx)) (hdisj v hv1)
      obtain ⟨news, adj2, h2, hall⟩ := ih st1.adj st1.visited (comps ++ [st1.component])
        r1 hks' (by rw [step.friends]; exact hU) step.nodup
        (by
          intro v hv1 w hw
          rcases (hmem v).1 hv1 with h5 | h5
          · exact (hmem w).2 (Or.inl ((hfacts v h5).2 w hw))
          · exact (hmem w).2 (Or.inr (hclosed v h5 w hw)))
      rw [h1]
      simp only
      refine ⟨(k :: new) :: news, adj2, ?_, ?_⟩
      · rw [h2, hcomp]
        simp
      · intro c hc
        rcases List.mem_cons.1 hc with e | e
        · rw [e]
          refine ⟨fun v hv1 => (hfacts v hv1).2, ?_⟩
          intro v hv1 w hw
          obtain ⟨n, hn⟩ := (hfacts v hv1).1
          obtain ⟨m, hm⟩ := (hfacts w hw).1
          exact ⟨n + m, (hn.reverse hsym).append hm⟩
        · exact hall c e

theorem sweepAll_components (adj : AdjList)
    (hsym : ∀ x y, y ∈ neighbors adj x ↔ x ∈ neighbors adj y) :
    ∃ found adj1, sweepAll adj = some (found, adj1) ∧
      (∀ k ∈ keys adj, k ∈ found.flatten) ∧
      ∀ c ∈ found, (∀ v ∈ c, ∀ w n, Path adj v n w → w ∈ c) ∧
        (∀ v ∈ c, ∀ w ∈ c, ∃ n, Path adj v n w) := by
  obtain ⟨found, adj1, h, _, hcover, _, _⟩ := sweepAll_spec adj
  obtain ⟨news, adj2, h2, hall⟩ :=
    sweep_reach adj hsym (keys adj ++ allFriends adj)
      ((keys adj).length + (allFriends adj).length + 1)
      (by simp) (keys adj) adj [] [] (fun _ => rfl)
      (fun k hk => List.mem_append_left _ hk)
      (fun w hw => List.mem_append_right _ hw) List.nodup_nil (by simp)
  have heq : found = news := by
    unfold sweepAll at h
    rw [h2] at h
    simp only [List.nil_append, Option.some.injEq, Prod.mk.injEq] at h
    exact h.1.symm
  refine ⟨found, adj1, h, hcover, ?_⟩
  intro c hc
  obtain ⟨hcl, hconn⟩ := hall c (heq ▸ hc)
  refine ⟨?_, hconn⟩
  intro v hv w n hp
  induction hp with
  | refl => exact hv
  | step _ hw ih => exact hcl _ ih _ hw

/-! ## Every user is pushed on a queue at most once -/

theorem suggestScanLog_fst (df : List String) (depth : Int) (nbrs : List String)
    (st : SuggestState) (log : List String) :
    (suggestScanLog df depth nbrs st log).1 = suggestScan df depth nbrs st := by
  induction nbrs generalizing st log with
  | nil => rfl
  | cons w rest ih =>
    unfold suggestScanLog suggestScan
    split
    · exact ih st log
    · exact ih _ _

theorem suggestLoopLog_erase (df : List String) (fuel : Nat) (adj : AdjList)
    (st : SuggestState) (log : List String) :
    (suggestLoopLog df fuel adj st log).map (fun r => (r.1, r.2.1)) =
      suggestLoop df fuel adj st := by
  induction fuel generalizing adj st log with
  | zero => rfl
  | succ fuel ih =>
    unfold suggestLoopLog suggestLoop
    cases hq : st.q with
    | nil => rfl
    | cons e q =>
      obtain ⟨current, depth⟩ := e
      simp only
      split
      · exact ih adj _ log
      · rw [ih, suggestScanLog_fst]

theorem suggestScanLog_nodup (df : List String) (depth : Int) (nbrs : List String)
    (st : SuggestState) (log : List String) (hnd : log.Nodup)
    (hsub : ∀ x ∈ log, x ∈ st.visited) :
    (suggestScanLog df depth nbrs st log).2.Nodup ∧
      ∀ x ∈ (suggestScanLog df depth nbrs st log).2,
        x ∈ (suggestScanLog df depth nbrs st log).1.visited := by
  induction nbrs generalizing st log with
  | nil => exact ⟨hnd, hsub⟩
  | cons w rest ih =>
    unfold suggestScanLog
    split
    · exact ih st log hnd hsub
    · rename_i hv
      apply ih
      · rw [List.nodup_append]
        refine ⟨hnd, List.nodup_singleton _, ?_⟩
        intro x hx hx'
        simp only [List.mem_singleton] at hx'
        exact hv (hx' ▸ hsub x hx)
      · intro x hx
        rcases List.mem_append.1 hx with h | h
        · exact List.mem_cons_of_mem _ (hsub x h)
        · simp only [List.mem_singleton] at h
          exact h ▸ List.mem_cons_self _ _

theorem suggestLoopLog_nodup (df : List String) (fuel : Nat) (adj : AdjList)
    (st : SuggestState) (log : List String) (hnd : log.Nodup)
    (hsub : ∀ x ∈ log, x ∈ st.visited)
    (adj1 : AdjList) (dm : List (String × Int)) (log1 : List String)
    (h : suggestLoopLog df fuel adj st log = some (adj1, dm, log1)) : log1.Nodup := by
  induction fuel generalizing adj st log with
  | zero => simp [suggestLoopLog] at h
  | succ fuel ih =>
    unfold suggestLoopLog at h
    cases hq : st.q with
    | nil =>
      simp only [hq, Option.some.injEq, Prod.mk.injEq] at h
      exact h.2.2 ▸ hnd
    | cons e q =>
      obtain ⟨current, depth⟩ := e
      simp only [hq] at h
      split at h
      · exact ih adj { st with q := q } log hnd hsub h
      · have := suggestScanLog_nodup df depth (neighbors adj current)
          { st with q := q } log hnd hsub
        exact ih _ _ _ this.1 this.2 h

theorem dosScanLog_fst (b cur : String) (nbrs : List String)
    (vis : List (String × Int)) (q log : List String) :
    (dosScanLog b cur nbrs vis q log).1 = dosScan b cur nbrs vis q := by
  induction nbrs generalizing vis q log with
  | nil => rfl
  | cons w rest ih =>
    unfold dosScanLog dosScan
    split
    · exact ih vis q log
    · simp only
      split
      · rfl
      · exact ih _ _ _

theorem dosLoopLog_erase (b : String) (fuel : Nat) (adj : AdjList)
    (vis : List (String × Int)) (q log : List String) :
    (dosLoopLog b fuel adj vis q log).map (fun r => (r.1, r.2.1)) =
      dosLoop b fuel adj vis q := by
  induction fuel generalizing adj vis q log with
  | zero => rfl
  | succ fuel ih =>
    cases q with
    | nil => rfl
    | cons cur q =>
      simp only [dosLoopLog, dosLoop]
      have hfst := dosScanLog_fst b cur (neighbors adj cur) vis q log
      cases hs : dosScanLog b cur (neighbors adj cur) vis q log with
      | mk r log1 =>
        rw [hs] at hfst
        simp only at hfst
        rw [← hfst]
        cases r with
        | inl r1 => rfl
        | inr p =>
          obtain ⟨vis1, q1⟩ := p
          exact ih _ _ _ _

theorem dosScanLog_nodup (b cur : String) (nbrs : List String)
    (vis : List (String × Int)) (q log : List String) (hnd : log.Nodup)
    (hsub : ∀ x ∈ log, (find vis x).isSome = true) :
    (dosScanLog b cur nbrs vis q log).2.Nodup ∧
      ∀ vis1 q1, (dosScanLog b cur nbrs vis q log).1 = Sum.inr (vis1, q1) →
        ∀ x ∈ (dosScanLog b cur nbrs vis q log).2, (find vis1 x).isSome = true := by
  induction nbrs generalizing vis q log with
  | nil =>
    refine ⟨hnd, ?_⟩
    intro vis1 q1 h
    simp only [dosScanLog, Sum.inr.injEq, Prod.mk.injEq] at h
    exact h.1 ▸ hsub
  | cons w rest ih =>
    unfold dosScanLog
    split
    · exact ih vis q log hnd hsub
    · rename_i hv
      simp only
      split
      · exact ⟨hnd, fun _ _ h => absurd h (by simp)⟩
      · apply ih
        · rw [List.nodup_append]
          refine ⟨hnd, List.nodup_singleton _, ?_⟩
          intro x hx hx'
          simp only [List.mem_singleton] at hx'
          exact hv (hx' ▸ hsub x hx)
        · intro x hx
          rw [find_cons]
          by_cases e : w = x
          · simp [e]
          · simp only [e, if_false]
            rcases List.mem_append.1 hx with h | h
            · exact hsub x h
            · simp only [List.mem_singleton] at h
              exact absurd h.symm e

theorem dosLoopLog_nodup (b : String) (fuel : Nat) (adj : AdjList)
    (vis : List (String × Int)) (q log : List String) (hnd : log.Nodup)
    (hsub : ∀ x ∈ log, (find vis x).isSome = true)
    (r : Int) (adj1 : AdjList) (log1 : List String)
    (h : dosLoopLog b fuel adj vis q log = some (r, adj1, log1)) : log1.Nodup := by
  induction fuel generalizing adj vis q log with
  | zero => simp [dosLoopLog] at h
  | succ fuel ih =>
    cases q with
    | nil =>
      simp only [dosLoopLog, Option.some.injEq, Prod.mk.injEq] at h
      exact h.2.2 ▸ hnd
    | cons cur q =>
      simp only [dosLoopLog] at h
      have hscan := dosScanLog_nodup b cur (neighbors adj cur) vis q log hnd hsub
      cases hs : dosScanLog b cur (neighbors adj cur) vis q log with
      | mk res log2 =>
        rw [hs] at h hscan
        cases res with
        | inl r1 =>
          simp only [Option.some.injEq, Prod.mk.injEq] at h
          exact h.2.2 ▸ hscan.1
        | inr p =>
          obtain ⟨vis1, q1⟩ := p
          simp only at h
          exact ih _ _ _ _ hscan.1 (hscan.2 vis1 q1 rfl) h

theorem suggestFriendsByDegreeLog_spec (adj : AdjList) (u : String) :
    ∃ res adj1 log, suggestFriendsByDegreeLog adj u = some (res, adj1, log) ∧
      suggestFriendsByDegree adj u = some (res, adj1) ∧ log.Nodup := by
  obtain ⟨adj1, dm, hrun, hres⟩ := suggestFriendsByDegree_run adj u
  have herase := suggestLoopLog_erase (u :: neighbors adj u) ((allFriends adj).length + 2)
    (touch adj u) { visited := [u], degreeMap := [], q := [(u, 0)] } [u]
  rw [hrun] at herase
  cases hlog : suggestLoopLog (u :: neighbors adj u) ((allFriends adj).length + 2)
      (touch adj u) { visited := [u], degreeMap := [], q := [(u, 0)] } [u] with
  | none => simp [hlog] at herase
  | some t =>
    obtain ⟨adj2, dm2, log⟩ := t
    simp only [hlog, Option.map_some', Option.some.injEq, Prod.mk.injEq] at herase
    have hnd := suggestLoopLog_nodup _ _ _ _ [u] (List.nodup_singleton u) (by simp)
      adj2 dm2 log hlog
    refine ⟨(sortBy byScore dm).take 5, adj1, log, ?_, hres, hnd⟩
    simp only [suggestFriendsByDegreeLog, hlog, herase.1, herase.2]

theorem degreeOfSeparationLog_spec (adj : AdjList) (a b : String) :
    ∃ r adj1 log, degreeOfSeparationLog adj a b = some (r, adj1, log) ∧
      degreeOfSeparation adj a b = some (r, adj1) ∧ log.Nodup := by
  obtain ⟨r, adj1, h⟩ := degreeOfSeparation_total adj a b
  have herase := dosLoopLog_erase b ((allFriends adj).length + 2) adj [(a, 0)] [a] [a]
  unfold degreeOfSeparation at h
  rw [h] at herase
  cases hlog : dosLoopLog b ((allFriends adj).length + 2) adj [(a, 0)] [a] [a] with
  | none => simp [hlog] at herase
  | some t =>
    obtain ⟨r2, adj2, log⟩ := t
    simp only [hlog, Option.map_some', Option.some.injEq, Prod.mk.injEq] at herase
    have hnd := dosLoopLog_nodup b _ adj [(a, 0)] [a] [a] (List.nodup_singleton a)
      (by simp [find]) r2 adj2 log hlog
    refine ⟨r, adj1, log, ?_, ?_, hnd⟩
    · simp only [degreeOfSeparationLog, hlog, herase.1, herase.2]
    · simp only [degreeOfSeparation, h]

/-! ## Lines 60-65: the possible results -/

theorem suggestFriendsByDegree_is_outcome (adj : AdjList) (u : String)
    (res : List (String × Int)) (adj1 : AdjList)
    (h : suggestFriendsByDegree adj u = some (res, adj1)) : SuggestOutcome adj u res adj1 := by
  obtain ⟨adj2, dm, hrun, hres⟩ := suggestFriendsByDegree_run adj u
  rw [hres] at h
  simp only [Option.some.injEq, Prod.mk.injEq] at h
  refine ⟨dm, dm, sortBy byScore dm, ?_, List.Perm.refl _, ⟨sortBy_perm byScore dm, ?_⟩,
    h.1.symm⟩
  · rw [← h.2]
    exact hrun
  · exact sortBy_pairwise byScore
      (by intro a b h; simp [byScore] at h ⊢; omega)
      (by intro a b c h1 h2; simp [byScore] at h1 h2 ⊢; omega) dm

/-- C1: for every store and every user `u`, `suggestFriendsByDegree(u)` returns a
list that contains neither `u` itself nor any identifier that occurs in the
friend sequence of `u`. -/
theorem suggestFriendsByDegree_excludes_self_and_friends (adj : AdjList) (u : String) :
    ∃ res adj1, suggestFriendsByDegree adj u = some (res, adj1) ∧
      ∀ p ∈ res, p.1 ≠ u ∧ p.1 ∉ neighbors adj u := by
  obtain ⟨adj1, dm, hrun, hres⟩ := suggestFriendsByDegree_run adj u
  refine ⟨_, adj1, hres, ?_⟩
  intro p hp
  have hp1 : p ∈ dm := (sortBy_perm byScore dm).subset (List.mem_of_mem_take hp)
  have := suggestLoop_candidates _ _ _ _ _ _ hrun (by simp) p.1 (List.mem_map_of_mem _ hp1)
  simp only [List.mem_cons, not_or] at this
  exact this

/-- C2: for every store and every user `u`, the list returned by
`suggestFriendsByDegree(u)` has at most 5 entries and its scores never increase
from one entry to a later one. -/
theorem suggestFriendsByDegree_length_sorted (adj : AdjList) (u : String) :
    ∃ res adj1, suggestFriendsByDegree adj u = some (res, adj1) ∧
      res.length ≤ 5 ∧ res.Pairwise (fun p r => r.2 ≤ p.2) := by
  obtain ⟨adj1, dm, _, hres⟩ := suggestFriendsByDegree_run adj u
  refine ⟨_, adj1, hres, ?_, ?_⟩
  · simp only [List.length_take]
    omega
  · exact (sortBy_byScore_pairwise dm).sublist (List.take_sublist _ _)

/-- C3 (the code departs from it): the claim asks for `degreeOfSeparation(u, u) = 0`
for a known user; the function returns `-1` for every store and every `u`,
because the target is only compared with newly discovered friends and the
start user is marked visited before the loop.  The second part evaluates the
function on the store of the spec's scenario at the known user `A`. -/
theorem degreeOfSeparation_self_is_minus_one :
    (∀ (adj : AdjList) (u : String), ∃ adj1, degreeOfSeparation adj u u = some (-1, adj1)) ∧
      hasKey exampleStore "A" = true ∧
      degreeOfSeparation exampleStore "A" "A" = some (-1, exampleStore) :=
  ⟨degreeOfSeparation_same, by decide, by decide⟩

/-- C4: for every store (in particular every store built by the loader) and every
two distinct users `a` and `b`: if some path of friend edges leads from `a` to
`b`, `degreeOfSeparation(a, b)` returns the number of edges of a shortest such
path, which is at least 1; if no path exists it returns `-1`. -/
theorem degreeOfSeparation_shortest_path (adj : AdjList) (a b : String) (hab : a ≠ b) :
    ∃ r adj1, degreeOfSeparation adj a b = some (r, adj1) ∧
      ((∃ m, Path adj a m b) →
        ∃ n : Nat, r = n ∧ 1 ≤ n ∧ Path adj a n b ∧ ∀ m, Path adj a m b → n ≤ m) ∧
      ((∀ m, ¬ Path adj a m b) → r = -1) := by
  obtain ⟨r, adj1, h, hspec⟩ := degreeOfSeparation_spec adj a b hab
  refine ⟨r, adj1, h, ?_, ?_⟩
  · rintro ⟨m, hm⟩
    rcases hspec with ⟨n, hr, hp, hmin⟩ | ⟨_, hno⟩
    · refine ⟨n, hr, ?_, hp, hmin⟩
      cases hp with
      | refl => exact absurd rfl hab
      | step _ _ => omega
    · exact absurd hm (hno m)
  · intro hno
    rcases hspec with ⟨n, _, hp, _⟩ | ⟨hr, _⟩
    · exact absurd hp (hno n)
    · exact hr

/-- C4 on the spec's scenario (A→B, A→C, B→A, B→D, C→A, D→B):
`degreeOfSeparation(A, D) = 2`. -/
theorem degreeOfSeparation_shortest_path_witness :
    "A" ≠ "D" ∧ closed exampleStore = true ∧
      degreeOfSeparation exampleStore "A" "D" = some (2, exampleStore) ∧
      ∃ r adj1, degreeOfSeparation exampleStore "A" "D" = some (r, adj1) ∧
        ((∃ m, Path exampleStore "A" m "D") →
          ∃ n : Nat, r = n ∧ 1 ≤ n ∧ Path exampleStore "A" n "D" ∧
            ∀ m, Path exampleStore "A" m "D" → n ≤ m) ∧
        ((∀ m, ¬ Path exampleStore "A" m "D") → r = -1) :=
  ⟨by decide, by decide, by decide,
    degreeOfSeparation_shortest_path exampleStore "A" "D" (by decide)⟩

/-- C5 (the code departs from it): the claim says `-1` is returned exactly when no
path exists, the zero-length path from a user to itself included.  On the
spec's scenario `degreeOfSeparation(B, B)` returns `-1` although the
zero-length path from `B` to `B` exists. -/
theorem degreeOfSeparation_sentinel_despite_path :
    degreeOfSeparation exampleStore "B" "B" = some (-1, exampleStore) ∧
      Path exampleStore "B" 0 "B" :=
  ⟨by decide, Path.refl⟩

/-- C6: for every store whose edges are symmetric and every pair of users `a`
and `b`, `degreeOfSeparation(a, b)` and `degreeOfSeparation(b, a)` return the
same number. -/
theorem degreeOfSeparation_symmetric (adj : AdjList)
    (hsym : ∀ x y, y ∈ neighbors adj x ↔ x ∈ neighbors adj y) (a b : String) :
    ∃ r adj1 adj2, degreeOfSeparation adj a b = some (r, adj1) ∧
      degreeOfSeparation adj b a = some (r, adj2) := by
  by_cases hab : a = b
  · subst hab
    obtain ⟨adj1, h⟩ := degreeOfSeparation_same adj a
    exact ⟨-1, adj1, adj1, h, h⟩
  · obtain ⟨r1, adj1, h1, s1⟩ := degreeOfSeparation_spec adj a b hab
    obtain ⟨r2, adj2, h2, s2⟩ := degreeOfSeparation_spec adj b a (Ne.symm hab)
    refine ⟨r1, adj1, adj2, h1, ?_⟩
    rw [h2]
    rcases s1 with ⟨n1, hr1, hp1, hmin1⟩ | ⟨hr1, hno1⟩
    · rcases s2 with ⟨n2, hr2, hp2, hmin2⟩ | ⟨_, hno2⟩
      · have e1 := hmin1 n2 (hp2.reverse hsym)
        have e2 := hmin2 n1 (hp1.reverse hsym)
        have : n1 = n2 := by omega
        rw [hr1, hr2, this]
      · exact absurd (hp1.reverse hsym) (hno2 n1)
    · rcases s2 with ⟨n2, _, hp2, _⟩ | ⟨hr2, _⟩
      · exact absurd (hp2.reverse hsym) (hno1 n2)
      · rw [hr1, hr2]

/-- C6 on the spec's scenario, whose edges are symmetric. -/
theorem degreeOfSeparation_symmetric_witness :
    (∀ x y, y ∈ neighbors exampleStore x ↔ x ∈ neighbors exampleStore y) ∧
      ∃ r adj1 adj2, degreeOfSeparation exampleStore "A" "D" = some (r, adj1) ∧
        degreeOfSeparation exampleStore "D" "A" = some (r, adj2) :=
  ⟨symmetric_edges exampleStore (by decide),
    degreeOfSeparation_symmetric exampleStore (symmetric_edges exampleStore (by decide))
      "A" "D"⟩

/-- C8: for every store built by the loader and every identifier `x` with no
entry in it, `suggestFriendsByDegree(x)` returns the empty list, and for every
user `y`, `degreeOfSeparation(x, y)` and `degreeOfSeparation(y, x)` return `-1`. -/
theorem unknown_identifier_trivial (adj : AdjList) (hc : closed adj = true) (x : String)
    (hx : hasKey adj x = false) (y : String) :
    (∃ adj1, suggestFriendsByDegree adj x = some ([], adj1)) ∧
      (∃ adj1, degreeOfSeparation adj x y = some (-1, adj1)) ∧
      (∃ adj1, degreeOfSeparation adj y x = some (-1, adj1)) := by
  have hnb : neighbors adj x = [] := neighbors_of_not_hasKey adj x hx
  refine ⟨?_, ?_, ?_⟩
  · refine ⟨touch (touch adj x) x, ?_⟩
    simp [suggestFriendsByDegree, suggestLoop, suggestScan, neighbors_touch, hnb, sortBy]
  · by_cases hxy : x = y
    · subst hxy
      exact degreeOfSeparation_same adj x
    · obtain ⟨r, adj1, h, hspec⟩ := degreeOfSeparation_spec adj x y hxy
      rcases hspec with ⟨n, _, hp, _⟩ | ⟨hr, _⟩
      · exact absurd (hp.of_no_friends hnb).symm hxy
      · exact ⟨adj1, hr ▸ h⟩
  · by_cases hyx : y = x
    · subst hyx
      exact degreeOfSeparation_same adj y
    · obtain ⟨r, adj1, h, hspec⟩ := degreeOfSeparation_spec adj y x hyx
      rcases hspec with ⟨n, _, hp, _⟩ | ⟨hr, _⟩
      · rcases hp.target_listed with e | e
        · exact absurd e.symm hyx
        · have := hasKey_of_closed adj hc x e
          rw [hx] at this
          exact absurd this (by simp)
      · exact ⟨adj1, hr ▸ h⟩

/-- C8 on the spec's scenario with the unknown identifier `Z`. -/
theorem unknown_identifier_trivial_witness :
    closed exampleStore = true ∧ hasKey exampleStore "Z" = false ∧
      (∃ adj1, suggestFriendsByDegree exampleStore "Z" = some ([], adj1)) ∧
      (∃ adj1, degreeOfSeparation exampleStore "Z" "A" = some (-1, adj1)) ∧
      (∃ adj1, degreeOfSeparation exampleStore "A" "Z" = some (-1, adj1)) :=
  ⟨by decide, by decide, unknown_identifier_trivial exampleStore (by decide) "Z" (by decide) "A"⟩

/-- C7 (the code departs from it): the claim says that no query changes the store,
unknown identifiers included.  On the spec's scenario, where `Z` has no entry,
both `suggestFriendsByDegree(Z)` and `degreeOfSeparation(Z, A)` leave a map
with the new key `Z`, and the added key changes later answers: `basicStats`
counts 5 users instead of 4 and `getConnectedComponents` reports the extra
component of `Z`. -/
theorem query_adds_missing_start_user :
    hasKey exampleStore "Z" = false ∧
      suggestFriendsByDegree exampleStore "Z" = some ([], exampleStore ++ [("Z", [])]) ∧
      degreeOfSeparation exampleStore "Z" "A" = some (-1, exampleStore ++ [("Z", [])]) ∧
      keys (exampleStore ++ [("Z", [])]) ≠ keys exampleStore ∧
      (basicStats exampleStore).totalUsers = 4 ∧
      (basicStats (exampleStore ++ [("Z", [])])).totalUsers = 5 ∧
      getConnectedComponents (exampleStore ++ [("Z", [])]) =
        some ([["A", "B", "D", "C"], ["Z"]], exampleStore ++ [("Z", [])]) :=
  ⟨by decide, by decide, by decide, by decide, by decide, by decide, by decide⟩

/-- C9: for every store built by the loader, the components returned by
`getConnectedComponents()` are pairwise disjoint, none lists a user twice, every
listed user has an entry in the store, and, when the loop finds at most 5
components, every user with an entry belongs to exactly one returned component. -/
theorem getConnectedComponents_partition (adj : AdjList) (hc : closed adj = true) :
    ∃ comps adj1, getConnectedComponents adj = some (comps, adj1) ∧
      comps.Pairwise List.Disjoint ∧
      (∀ c ∈ comps, c.Nodup) ∧
      (∀ c ∈ comps, ∀ u ∈ c, hasKey adj u = true) ∧
      (componentCount adj ≤ 5 → ∀ u, hasKey adj u = true → ∃! c, c ∈ comps ∧ u ∈ c) := by
  obtain ⟨found, adj1, h, hnodup, hcover, hlisted, hframe⟩ := sweepAll_spec adj
  have hparts := List.nodup_flatten.1 hnodup
  have hperm := sortBy_perm bySize found
  have hsub : ∀ c ∈ (sortBy bySize found).take 5, c ∈ found :=
    fun c hcm => hperm.subset (List.mem_of_mem_take hcm)
  have hdisj : ((sortBy bySize found).take 5).Pairwise List.Disjoint :=
    ((hperm.pairwise_iff (fun h => List.Disjoint.symm h)).2 hparts.2).sublist
      (List.take_sublist _ _)
  refine ⟨(sortBy bySize found).take 5, adj1, by simp only [getConnectedComponents, h],
    hdisj, fun c hcm => hparts.1 c (hsub c hcm), ?_, ?_⟩
  · intro c hcm u hu
    have := hlisted c (hsub c hcm) u hu
    rw [hframe hc] at this
    exact this
  · intro hcount u hu
    have hlen : found.length ≤ 5 := by
      simpa only [componentCount, h] using hcount
    have hall : (sortBy bySize found).take 5 = sortBy bySize found :=
      List.take_of_length_le (by rw [hperm.length_eq]; exact hlen)
    obtain ⟨c, hcf, huc⟩ := List.mem_flatten.1 (hcover u ((hasKey_iff adj u).1 hu))
    refine ⟨c, ⟨by rw [hall]; exact hperm.symm.subset hcf, huc⟩, ?_⟩
    rintro d ⟨hd, hud⟩
    by_contra hne
    exact hdisj.forall (fun _ _ h => List.Disjoint.symm h) hd
      (by rw [hall]; exact hperm.symm.subset hcf) hne hud huc

/-- C9 on the spec's scenario (A→B, A→C, B→A, B→D, C→A, D→B): the result is the
single component with the members A, B, C and D. -/
theorem getConnectedComponents_partition_witness :
    closed exampleStore = true ∧ componentCount exampleStore ≤ 5 ∧
      getConnectedComponents exampleStore = some ([["A", "B", "D", "C"]], exampleStore) ∧
      ∃ comps adj1, getConnectedComponents exampleStore = some (comps, adj1) ∧
        comps.Pairwise List.Disjoint ∧
        (∀ c ∈ comps, c.Nodup) ∧
        (∀ c ∈ comps, ∀ u ∈ c, hasKey exampleStore u = true) ∧
        (componentCount exampleStore ≤ 5 →
          ∀ u, hasKey exampleStore u = true → ∃! c, c ∈ comps ∧ u ∈ c) :=
  ⟨by decide, by decide, by decide, getConnectedComponents_partition exampleStore (by decide)⟩

/-- C10: for every store, `getConnectedComponents()` returns `min(5, k)`
components, where `k` is the number of components found by the loop over the
keys, in non-increasing order of member count, and every component found but
left out has a member count no larger than that of every returned component. -/
theorem getConnectedComponents_top_five (adj : AdjList) :
    ∃ found comps adj1, sweepAll adj = some (found, adj1) ∧
      getConnectedComponents adj = some (comps, adj1) ∧
      comps.length = min 5 found.length ∧
      comps.Pairwise (fun c d => d.length ≤ c.length) ∧
      ∃ rest, (comps ++ rest).Perm found ∧
        ∀ c ∈ rest, ∀ r ∈ comps, c.length ≤ r.length := by
  obtain ⟨found, adj1, h, _⟩ := sweepAll_spec adj
  have hperm := sortBy_perm bySize found
  have hsorted := sortBy_bySize_pairwise found
  refine ⟨found, (sortBy bySize found).take 5, adj1, h,
    by simp only [getConnectedComponents, h], ?_, ?_, (sortBy bySize found).drop 5, ?_, ?_⟩
  · rw [List.length_take, hperm.length_eq]
  · exact hsorted.sublist (List.take_sublist _ _)
  · rw [List.take_append_drop]
    exact hperm
  · intro c hcm r hr
    rw [← List.take_append_drop 5 (sortBy bySize found), List.pairwise_append] at hsorted
    exact hsorted.2.2 r hr c hcm

/-- C13 (the code departs from it): the claim asks for an explicit empty-network
marker.  `basicStats` has no test on `totalUsers`: the divisor of line 141 is
the number of entries for every store, and on the empty store the quotient
evaluated is `(double)0 / 0`. -/
theorem basicStats_divides_by_zero_on_empty_store :
    (∀ adj : AdjList, (basicStats adj).averageDenominator = (adj.length : Int)) ∧
      (basicStats []).totalUsers = 0 ∧
      (basicStats []).averageNumerator = 0 ∧
      (basicStats []).averageDenominator = 0 :=
  ⟨fun _ => rfl, by decide, by decide, by decide⟩

/-- C14: building the store from a sequence of (source, target) edges, starting
from the empty store, yields a map with distinct keys whose key set is exactly
the identifiers that occur as a source or a target, in which the friend
sequence of each key is exactly the targets of the edges with that source, in
input order and with duplicates kept, and in which every listed friend has an
entry. -/
theorem build_spec (edges : List (String × String)) :
    (keys (build edges)).Nodup ∧
      (∀ k, k ∈ keys (build edges) ↔ ∃ e ∈ edges, e.1 = k ∨ e.2 = k) ∧
      (∀ k, neighbors (build edges) k =
        (edges.filter (fun e => decide (e.1 = k))).map Prod.snd) ∧
      closed (build edges) = true := by
  obtain ⟨hn, hk, hd, hc⟩ := foldl_addEdge_spec edges []
  refine ⟨hd (by simp [keys]), ?_, ?_, hc (by decide)⟩
  · intro k
    rw [build, hk k]
    simp [keys]
  · intro k
    rw [build, hn k]
    simp [neighbors, find]

/-- C15 (the code departs from it): the file of the spec's scenario followed by the
record `E,`.  The inner loop of the loader runs zero times for that record, so
the loaded map has no entry for `E`: `suggestFriendsByDegree(E)` does return
the empty list, but `getConnectedComponents()` on the store as loaded returns
the single component of A, B, C, D and no component that lists `E`. -/
theorem record_without_friends_is_not_loaded :
    loadFromCSV exampleLines = exampleStore ∧
      hasKey (loadFromCSV exampleLines) "E" = false ∧
      suggestFriendsByDegree (loadFromCSV exampleLines) "E" =
        some ([], exampleStore ++ [("E", [])]) ∧
      componentCount (loadFromCSV exampleLines) ≤ 5 ∧
      getConnectedComponents (loadFromCSV exampleLines) =
        some ([["A", "B", "D", "C"]], exampleStore) ∧
      ["E"] ∉ [["A", "B", "D", "C"]] :=
  ⟨by decide, by decide, by decide, by decide, by decide, by decide⟩

/-- C19: for every store built by the loader, `suggestFriendsByDegree(u)` leaves
the map as `adjList[u]` leaves it (unchanged when `u` has an entry, otherwise
extended by `u` with an empty friend sequence), `degreeOfSeparation(a, b)`
leaves it as `adjList[a]` leaves it whatever `b` is, and
`getConnectedComponents()` and `mostInfluentialUsers()` leave it unchanged. -/
theorem queries_add_at_most_start_user (adj : AdjList) (hc : closed adj = true)
    (u a b : String) :
    (∃ res, suggestFriendsByDegree adj u = some (res, touch adj u)) ∧
      (∃ r, degreeOfSeparation adj a b = some (r, touch adj a)) ∧
      (∃ comps, getConnectedComponents adj = some (comps, adj)) ∧
      (mostInfluentialUsers adj).2 = adj ∧
      (touch adj u = if hasKey adj u then adj else adj ++ [(u, [])]) := by
  refine ⟨?_, ?_, ?_, rfl, rfl⟩
  · obtain ⟨adj1, dm, hrun, hres⟩ := suggestFriendsByDegree_run adj u
    have := suggestLoop_frame _ _ (touch adj u) _ (closed_touch adj u hc)
      (by simpa using hasKey_touch_self adj u) adj1 dm hrun
    exact ⟨_, this ▸ hres⟩
  · by_cases ha : hasKey adj a = true
    · rw [touch_of_hasKey adj a ha]
      exact degreeOfSeparation_frame adj a b hc ha
    · have hnb : neighbors adj a = [] := neighbors_of_not_hasKey adj a (by simpa using ha)
      exact ⟨-1, by simp [degreeOfSeparation, dosLoop, dosScan, hnb]⟩
  · obtain ⟨found, adj1, h, _, _, _, hframe⟩ := sweepAll_spec adj
    rw [hframe hc] at h
    exact ⟨(sortBy bySize found).take 5, by simp only [getConnectedComponents, h]⟩

/-- C19 on the spec's scenario with the unknown start user `Z`. -/
theorem queries_add_at_most_start_user_witness :
    closed exampleStore = true ∧
      touch exampleStore "Z" = exampleStore ++ [("Z", [])] ∧
      touch exampleStore "A" = exampleStore ∧
      ((∃ res, suggestFriendsByDegree exampleStore "Z" = some (res, touch exampleStore "Z")) ∧
        (∃ r, degreeOfSeparation exampleStore "A" "Z" = some (r, touch exampleStore "A")) ∧
        (∃ comps, getConnectedComponents exampleStore = some (comps, exampleStore)) ∧
        (mostInfluentialUsers exampleStore).2 = exampleStore ∧
        (touch exampleStore "Z" =
          if hasKey exampleStore "Z" then exampleStore else exampleStore ++ [("Z", [])])) :=
  ⟨by decide, by decide, by decide,
    queries_add_at_most_start_user exampleStore (by decide) "Z" "A" "Z"⟩

/-- C12: for every store (a map, so with distinct keys) of `n` users,
`mostInfluentialUsers()` returns `min(5, n)` pairs with distinct users, in
non-increasing order of score, where each score is the length of that user's
friend sequence with duplicates counted, and no user left out of the result has
a longer friend sequence than any user in it. -/
theorem mostInfluentialUsers_ranking (adj : AdjList) (hnd : (keys adj).Nodup) :
    (mostInfluentialUsers adj).1.length = min 5 adj.length ∧
      ((mostInfluentialUsers adj).1.map Prod.fst).Nodup ∧
      (mostInfluentialUsers adj).1.Pairwise (fun p r => r.2 ≤ p.2) ∧
      (∀ p ∈ (mostInfluentialUsers adj).1,
        hasKey adj p.1 = true ∧ p.2 = ((neighbors adj p.1).length : Int)) ∧
      (∀ k, hasKey adj k = true → k ∉ (mostInfluentialUsers adj).1.map Prod.fst →
        ∀ p ∈ (mostInfluentialUsers adj).1, ((neighbors adj k).length : Int) ≤ p.2) := by
  have hcent : centralityOf adj [] = adj.map (fun e => (e.1, (e.2.length : Int))) := by
    rw [centralityOf_nodup adj [] hnd (by simp)]
    simp
  have hperm := sortBy_perm byScore (centralityOf adj [])
  have hsorted := sortBy_byScore_pairwise (centralityOf adj [])
  have hscore : ∀ p ∈ centralityOf adj [],
      hasKey adj p.1 = true ∧ p.2 = ((neighbors adj p.1).length : Int) := by
    intro p hp
    rw [hcent] at hp
    obtain ⟨e, he, rfl⟩ := List.mem_map.1 hp
    have hf := find_of_mem_nodup adj e.1 e.2 hnd he
    exact ⟨by simp [hasKey, hf], by simp [neighbors, hf]⟩
  have hkeys : ((sortBy byScore (centralityOf adj [])).map Prod.fst).Nodup := by
    have h1 : ((sortBy byScore (centralityOf adj [])).map Prod.fst).Perm (keys adj) := by
      refine (hperm.map Prod.fst).trans ?_
      rw [hcent, List.map_map]
      exact List.Perm.refl _
    exact h1.nodup_iff.2 hnd
  simp only [mostInfluentialUsers]
  refine ⟨?_, ?_, ?_, ?_, ?_⟩
  · rw [List.length_take, hperm.length_eq, hcent, List.length_map]
  · exact hkeys.sublist ((List.take_sublist _ _).map Prod.fst)
  · exact hsorted.sublist (List.take_sublist _ _)
  · intro p hp
    exact hscore p (hperm.subset (List.mem_of_mem_take hp))
  · intro k hk hout p hp
    obtain ⟨v, hv⟩ : ∃ v, find adj k = some v := by
      unfold hasKey at hk
      exact Option.isSome_iff_exists.1 hk
    have hmem : (k, (v.length : Int)) ∈ sortBy byScore (centralityOf adj []) := by
      apply hperm.symm.subset
      rw [hcent]
      exact List.mem_map.2 ⟨(k, v), find_mem adj k v hv, rfl⟩
    rw [← List.take_append_drop 5 (sortBy byScore (centralityOf adj []))] at hmem hsorted
    rcases List.mem_append.1 hmem with h | h
    · exact absurd (List.mem_map_of_mem Prod.fst h) hout
    · have := (List.pairwise_append.1 hsorted).2.2 p hp _ h
      simpa [neighbors, hv] using this

/-- C12 on the spec's scenario: A and B with 2 friends before C and D with 1. -/
theorem mostInfluentialUsers_ranking_witness :
    (keys exampleStore).Nodup ∧
      (mostInfluentialUsers exampleStore).1 = [("A", 2), ("B", 2), ("C", 1), ("D", 1)] ∧
      ((mostInfluentialUsers exampleStore).1.length = min 5 exampleStore.length ∧
        ((mostInfluentialUsers exampleStore).1.map Prod.fst).Nodup ∧
        (mostInfluentialUsers exampleStore).1.Pairwise (fun p r => r.2 ≤ p.2) ∧
        (∀ p ∈ (mostInfluentialUsers exampleStore).1,
          hasKey exampleStore p.1 = true ∧
            p.2 = ((neighbors exampleStore p.1).length : Int)) ∧
        (∀ k, hasKey exampleStore k = true →
          k ∉ (mostInfluentialUsers exampleStore).1.map Prod.fst →
          ∀ p ∈ (mostInfluentialUsers exampleStore).1,
            ((neighbors exampleStore k).length : Int) ≤ p.2)) :=
  ⟨by decide, by decide, mostInfluentialUsers_ranking exampleStore (by decide)⟩

/-- C17: for every store (in particular every store built by the loader) and
every user `u`, every user suggested by `suggestFriendsByDegree(u)` is at
shortest distance exactly 2 or exactly 3 from `u`, the result has `min(5, c)`
entries with distinct users, where `c` is the number of users at distance 2 or
3, and when `c ≤ 5` the suggested users are exactly the users at distance 2 or 3. -/
theorem suggestFriendsByDegree_distance_two_or_three (adj : AdjList) (u : String) :
    ∃ (res : List (String × Int)) (adj1 : AdjList) (cands : List String),
      suggestFriendsByDegree adj u = some (res, adj1) ∧
      cands.Nodup ∧
      (∀ w, w ∈ cands ↔ DistIs adj u 2 w ∨ DistIs adj u 3 w) ∧
      (∀ p ∈ res, p.1 ∈ cands) ∧
      (res.map Prod.fst).Nodup ∧
      res.length = min 5 cands.length ∧
      (cands.length ≤ 5 → ∀ w, w ∈ res.map Prod.fst ↔ w ∈ cands) := by
  obtain ⟨adj1, dm, dep, vis, _, hres, inv⟩ := suggestFriendsByDegree_final adj u
  have hperm := sortBy_perm byScore dm
  have hkeys : ((sortBy byScore dm).map Prod.fst).Perm (dm.map Prod.fst) := hperm.map Prod.fst
  refine ⟨(sortBy byScore dm).take 5, adj1, dm.map Prod.fst, hres, inv.distinct,
    inv.candidates, ?_, ?_, ?_, ?_⟩
  · intro p hp
    exact List.mem_map_of_mem Prod.fst (hperm.subset (List.mem_of_mem_take hp))
  · exact (hkeys.nodup_iff.2 inv.distinct).sublist ((List.take_sublist _ _).map Prod.fst)
  · rw [List.length_take, hperm.length_eq, List.length_map]
  · intro hlen w
    rw [List.length_map] at hlen
    rw [List.take_of_length_le (by rw [hperm.length_eq]; exact hlen)]
    exact hkeys.mem_iff

/-- C11: for every store with symmetric edges for which the loop finds at most 5
components, in whatever order the keys are walked, a user `x` with an entry
and a user `y` are placed in the same component by `getConnectedComponents()`
if and only if a path of friend edges leads from `x` to `y`; and the members of
each returned component are mutually reachable and the component contains every
user reachable from one of its members. -/
theorem getConnectedComponents_same_component_iff_path (adj : AdjList)
    (hsym : ∀ x y, y ∈ neighbors adj x ↔ x ∈ neighbors adj y)
    (hcount : componentCount adj ≤ 5) (x y : String) (hx : hasKey adj x = true) :
    ∃ comps adj1, getConnectedComponents adj = some (comps, adj1) ∧
      ((∃ c ∈ comps, x ∈ c ∧ y ∈ c) ↔ ∃ n, Path adj x n y) ∧
      ∀ c ∈ comps, (∀ v ∈ c, ∀ w ∈ c, ∃ n, Path adj v n w) ∧
        ∀ v ∈ c, ∀ w n, Path adj v n w → w ∈ c := by
  obtain ⟨found, adj1, h, hcover, hall⟩ := sweepAll_components adj hsym
  have hperm := sortBy_perm bySize found
  have hlen : found.length ≤ 5 := by
    simpa only [componentCount, h] using hcount
  have htake : (sortBy bySize found).take 5 = sortBy bySize found :=
    List.take_of_length_le (by rw [hperm.length_eq]; exact hlen)
  refine ⟨(sortBy bySize found).take 5, adj1, by simp only [getConnectedComponents, h],
    ?_, ?_⟩
  · rw [htake]
    constructor
    · rintro ⟨c, hc, hxc, hyc⟩
      exact (hall c (hperm.subset hc)).2 x hxc y hyc
    · rintro ⟨n, hp⟩
      obtain ⟨c, hc, hxc⟩ := List.mem_flatten.1 (hcover x ((hasKey_iff adj x).1 hx))
      exact ⟨c, hperm.symm.subset hc, hxc, (hall c hc).1 x hxc y n hp⟩
  · intro c hc
    have := hall c (hperm.subset (List.mem_of_mem_take hc))
    exact ⟨this.2, this.1⟩

/-- C11 on the spec's scenario, whose edges are symmetric, for the users A and D. -/
theorem getConnectedComponents_same_component_iff_path_witness :
    (∀ x y, y ∈ neighbors exampleStore x ↔ x ∈ neighbors exampleStore y) ∧
      componentCount exampleStore ≤ 5 ∧ hasKey exampleStore "A" = true ∧
      ∃ comps adj1, getConnectedComponents exampleStore = some (comps, adj1) ∧
        ((∃ c ∈ comps, "A" ∈ c ∧ "D" ∈ c) ↔ ∃ n, Path exampleStore "A" n "D") ∧
        ∀ c ∈ comps, (∀ v ∈ c, ∀ w ∈ c, ∃ n, Path exampleStore v n w) ∧
          ∀ v ∈ c, ∀ w n, Path exampleStore v n w → w ∈ c :=
  ⟨symmetric_edges exampleStore (by decide), by decide, by decide,
    getConnectedComponents_same_component_iff_path exampleStore
      (symmetric_edges exampleStore (by decide)) (by decide) "A" "D" (by decide)⟩

/-- C16: on every store the three traversals terminate.  `suggestFriendsByDegree`
and `degreeOfSeparation` return a result and the list of the users pushed on
their queue has no repetition; `getConnectedComponents` returns a result and
the users on which `dfs` was called (each call appends its user to the current
component) are pairwise distinct.  The last four parts evaluate the empty
store and a single user that lists itself twice. -/
theorem traversals_terminate :
    (∀ (adj : AdjList) (u a b : String),
      (∃ res adj1 log, suggestFriendsByDegreeLog adj u = some (res, adj1, log) ∧
        suggestFriendsByDegree adj u = some (res, adj1) ∧ log.Nodup) ∧
      (∃ r adj1 log, degreeOfSeparationLog adj a b = some (r, adj1, log) ∧
        degreeOfSeparation adj a b = some (r, adj1) ∧ log.Nodup) ∧
      (∃ found comps adj1, sweepAll adj = some (found, adj1) ∧
        getConnectedComponents adj = some (comps, adj1) ∧ found.flatten.Nodup)) ∧
      getConnectedComponents [] = some ([], []) ∧
      suggestFriendsByDegree [("A", ["A", "A"])] "A" = some ([], [("A", ["A", "A"])]) ∧
      degreeOfSeparation [("A", ["A", "A"])] "A" "B" = some (-1, [("A", ["A", "A"])]) ∧
      getConnectedComponents [("A", ["A", "A"])] = some ([["A"]], [("A", ["A", "A"])]) := by
  refine ⟨?_, by decide, by decide, by decide, by decide⟩
  intro adj u a b
  refine ⟨suggestFriendsByDegreeLog_spec adj u, degreeOfSeparationLog_spec adj a b, ?_⟩
  obtain ⟨found, adj1, h, hnodup, _⟩ := sweepAll_spec adj
  exact ⟨found, (sortBy bySize found).take 5, adj1, h,
    by simp only [getConnectedComponents, h], hnodup⟩

end SocialNetwork
